import Mathlib

/-!
Verification of the factsheet parser (`parse_factsheet.py`) against its
natural-language specification.  Python strings are modelled as `List Char`;
the regular expressions of the source are translated into explicit
deterministic matchers; Python `float` values are modelled as exact
rationals; fallible parses return `Option`.  Character classes follow the
source's regexes, restricted to the character ranges the source manipulates
(ASCII word/letter/digit classes plus the Unicode space code points that
Python's `\s` accepts).
-/

set_option maxHeartbeats 1000000
set_option maxRecDepth 100000

abbrev Str := List Char

/-- Character class of Python's `\s`: ASCII whitespace plus the Unicode
space code points (including U+00A0, U+2007, U+202F, which `clean_text`
names explicitly). -/
def isPySpace (c : Char) : Bool :=
  c = ' ' || c = '\t' || c = '\n' || c = '\r' || c = '\u000b' || c = '\u000c' ||
  c = '\u001c' || c = '\u001d' || c = '\u001e' || c = '\u001f' ||
  c = '\u0085' || c = '\u00a0' || c = '\u1680' ||
  ('\u2000' ≤ c && c ≤ '\u200a') ||
  c = '\u2028' || c = '\u2029' || c = '\u202f' || c = '\u205f' ||
  c = '\u3000'

/-- Python `\w` (word character), restricted to the ASCII range. -/
def isWordC (c : Char) : Bool := c.isAlpha || c.isDigit || c = '_'

def isLowerC (c : Char) : Bool := c.isLower
def isUpperC (c : Char) : Bool := c.isUpper
def isAlphaC (c : Char) : Bool := c.isAlpha
def isDigitC (c : Char) : Bool := c.isDigit

/-- `t.replace("\t", " ")` -/
def replaceTab (t : Str) : Str := t.map (fun c => if c = '\t' then ' ' else c)

/-- `re.sub(r"[   ]", " ", t)` -/
def replaceNbsp (t : Str) : Str :=
  t.map (fun c => if c = '\u00a0' || c = '\u2007' || c = '\u202f' then ' ' else c)

/-- Scanner state for `re.sub(r"(\w)-\s+(\w)", r"\1\2", t)`: either scanning,
or having consumed `w` `-` and a (reversed) nonempty run of whitespace. -/
inductive HyphenSt where
  | scan : HyphenSt
  | skip : Char → Str → HyphenSt

/-- One pass of `re.sub(r"(\w)-\s+(\w)", r"\1\2", t)`: non-overlapping
left-to-right replacement; on a match the hyphen and whitespace are dropped
and scanning resumes after the consumed second word character.  The fuel
argument (at least the length of the string at every call) only forces
structural termination. -/
def shAux : Nat → HyphenSt → Str → Str
  | 0, .scan, l => l
  | 0, .skip w sp, l => w :: '-' :: sp.reverse ++ l
  | _ + 1, .scan, [] => []
  | f + 1, .scan, c :: rest =>
    if isWordC c then
      match rest with
      | '-' :: s :: rest2 =>
        if isPySpace s then shAux f (.skip c [s]) rest2
        else c :: '-' :: shAux f .scan (s :: rest2)
      | _ => c :: shAux f .scan rest
    else c :: shAux f .scan rest
  | _ + 1, .skip w sp, [] => w :: '-' :: sp.reverse
  | f + 1, .skip w sp, c :: rest =>
    if isPySpace c then shAux f (.skip w (c :: sp)) rest
    else if isWordC c then w :: c :: shAux f .scan rest
    else w :: '-' :: sp.reverse ++ c :: shAux f .scan rest

def subHyphen (t : Str) : Str := shAux t.length .scan t

/-- `re.sub(r"\s+", " ", t)`: each maximal whitespace run becomes one space.
The boolean records whether the previous character was whitespace. -/
def collapseAux : Bool → Str → Str
  | _, [] => []
  | inSp, c :: rest =>
    if isPySpace c then
      if inSp then collapseAux true rest else ' ' :: collapseAux true rest
    else c :: collapseAux false rest

def collapseWs (t : Str) : Str := collapseAux false t

/-- `re.sub("(p)(q)", r"\1 \2", t)` for disjoint single-character classes
`p`, `q`: insert a space at each (non-overlapping) p-q adjacency. -/
def subPair (p q : Char → Bool) : Str → Str
  | [] => []
  | [c] => [c]
  | c :: d :: rest =>
    if p c && q d then c :: ' ' :: d :: subPair p q rest
    else c :: subPair p q (d :: rest)

/-- Python `str.strip()`. -/
def pyStrip (t : Str) : Str :=
  ((t.dropWhile isPySpace).reverse.dropWhile isPySpace).reverse

/-- `clean_text` of the source: tab / non-breaking-space replacement,
hyphen-break rejoin, whitespace collapse, case and digit transition space
insertion, trim. -/
def clean_text (t : Str) : Str :=
  if t = [] then []
  else
    pyStrip
      (subPair isDigitC isAlphaC
        (subPair isAlphaC isDigitC
          (subPair isLowerC isUpperC
            (collapseWs (subHyphen (replaceNbsp (replaceTab t)))))))

/-- Occurrence test for the pattern `(\w)-\s+(\w)` (a surviving
hyphen-line-break artifact). -/
def hasHyphenBreak : Str → Bool
  | [] => false
  | c :: rest =>
    (isWordC c &&
      (match rest with
       | '-' :: s :: rest2 =>
         isPySpace s &&
           (match rest2.dropWhile isPySpace with
            | d :: _ => isWordC d
            | [] => false)
       | _ => false)) ||
    hasHyphenBreak rest

example : clean_text "a- b- c".toList = "ab- c".toList := by decide
example : clean_text "ab- c".toList = "abc".toList := by decide
example : hasHyphenBreak (clean_text "ab cd".toList) = false := by decide

/-- Case-sensitive "pattern begins the string" test. -/
def listBegins : Str → Str → Bool
  | [], _ => true
  | _ :: _, [] => false
  | p :: ps, c :: cs => p = c && listBegins ps cs

/-- Case-insensitive (ASCII case folding) "pattern begins the string" test. -/
def ciBegins : Str → Str → Bool
  | [], _ => true
  | _ :: _, [] => false
  | p :: ps, c :: cs => p.toLower = c.toLower && ciBegins ps cs

/-- Python's `pat in s` substring test. -/
def hasSub (pat : Str) : Str → Bool
  | [] => listBegins pat []
  | c :: rest => listBegins pat (c :: rest) || hasSub pat rest

def pyUpper (t : Str) : Str := t.map Char.toUpper
def pyLower (t : Str) : Str := t.map Char.toLower

/-- Word character following position `k`, for the trailing `\b` of a
whole-word pattern: true when the string ends there or continues with a
non-word character. -/
def boundaryAfter (k : Nat) (s : Str) : Bool :=
  match s.drop k with
  | [] => true
  | d :: _ => !isWordC d

def patEndsWord (pat : Str) (dflt : Bool) : Bool :=
  match pat.reverse with
  | [] => dflt
  | x :: _ => isWordC x

/-- `re.sub(r"\b<pat>\b", rep, text, flags=re.IGNORECASE)` for a literal
word `pat`: left-to-right non-overlapping replacement; the word boundaries
are judged on the original text (scanning resumes after the matched word).
The fuel argument (the string length) only forces structural termination. -/
def subWordAux (pat rep : Str) : Nat → Bool → Str → Str
  | 0, _, l => l
  | _ + 1, _, [] => []
  | f + 1, prevW, c :: rest =>
    if !prevW && ciBegins pat (c :: rest) && boundaryAfter pat.length (c :: rest) then
      rep ++ subWordAux pat rep f (patEndsWord pat prevW) (List.drop pat.length (c :: rest))
    else c :: subWordAux pat rep f (isWordC c) rest

def subWordCI (pat rep t : Str) : Str := subWordAux pat rep t.length false t

/-- The fixed substitution table of `fix_glued_domain_terms`, in source
order. -/
def gluedFixes : List (Str × Str) :=
  [("openended".toList, "open ended".toList),
   ("endedequity".toList, "ended equity".toList),
   ("equityscheme".toList, "equity scheme".toList),
   ("schemeinvesting".toList, "scheme investing".toList),
   ("investingin".toList, "investing in".toList),
   ("inmaximum".toList, "in maximum".toList),
   ("multicapstocks".toList, "multicap stocks".toList),
   ("mutualfundinvestmentsaresubjecttomarketrisks".toList,
    "Mutual Fund investments are subject to market risks".toList),
   ("readallschemerelateddocumentscarefully".toList,
    "read all scheme related documents carefully".toList)]

/-- `fix_glued_domain_terms` of the source. -/
def fix_glued_domain_terms (t : Str) : Str :=
  if t = [] then t
  else gluedFixes.foldl (fun acc pr => subWordCI pr.1 pr.2 acc) t

def noiseCompact1 : Str := "mutualfundinvestmentsaresubjecttomarketrisks".toList
def noiseCompact2 : Str := "readallschemerelateddocumentscarefully".toList

/-- `re.search(r"^\s*Page\s*\|?\s*\d+\s*$", text, re.IGNORECASE)`. -/
def pageOnlyLine (t : Str) : Bool :=
  let r1 := t.dropWhile isPySpace
  ciBegins "page".toList r1 &&
    (let r2 := (r1.drop 4).dropWhile isPySpace
     let r3 := match r2 with
               | '|' :: rest => rest.dropWhile isPySpace
               | _ => r2
     let ds := r3.takeWhile isDigitC
     ds ≠ [] && (r3.dropWhile isDigitC).dropWhile isPySpace = [])

/-- `re.search(r"Page\s*\d+", text, re.IGNORECASE)`. -/
def hasPageNum : Str → Bool
  | [] => false
  | c :: rest =>
    (ciBegins "page".toList (c :: rest) &&
      (match ((c :: rest).drop 4).dropWhile isPySpace with
       | d :: _ => isDigitC d
       | [] => false)) ||
    hasPageNum rest

/-- `is_noise` of the source. -/
def is_noise (t : Str) : Bool :=
  if t = [] then false
  else
    (let compact := (t.filter isAlphaC).map Char.toLower
     hasSub noiseCompact1 compact || hasSub noiseCompact2 compact) ||
    pageOnlyLine t || hasPageNum t

example : fix_glued_domain_terms "an openended scheme".toList
    = "an open ended scheme".toList := by decide
example : fix_glued_domain_terms "xopenended".toList = "xopenended".toList := by decide
example : is_noise "Page | 3".toList = true := by decide
example : is_noise "see Page 12 now".toList = true := by decide
example : is_noise "Net AUM : Rs 12,345.67 crore".toList = false := by decide

/-- `re.match(r".*[A-Za-z]$", cur)`: the string (up to one trailing newline,
which `$` tolerates) is nonempty, ends in an ASCII letter, and the part
before that letter has no newline (which `.` cannot match). -/
def matchTrailAlpha (s : Str) : Bool :=
  let q := match s.getLast? with
           | some '\n' => s.dropLast
           | _ => s
  match q.getLast? with
  | some x => isAlphaC x && !(q.dropLast.contains '\n')
  | none => false

/-- `re.match(r"^[a-z]{1,6}$", nxt)`: one to six lowercase ASCII letters
(up to one trailing newline, which `$` tolerates). -/
def matchLowerWord (s : Str) : Bool :=
  let q := match s.getLast? with
           | some '\n' => s.dropLast
           | _ => s
  !q.isEmpty && q.length ≤ 6 && q.all isLowerC

def listEnds (pat s : Str) : Bool := listBegins pat.reverse s.reverse

/-- The merge condition of `merge_fragments`: short pair, alphabetic
continuation, or percent-split artifact. -/
def mergeCond (cur nxt : Str) : Bool :=
  (cur.length ≤ 4 && nxt.length ≤ 6) ||
  (matchTrailAlpha cur && matchLowerWord nxt) ||
  (listEnds "%Yo".toList (pyStrip cur) && listBegins "Y".toList (pyStrip nxt))

def mfAux (cur : Str) : List Str → List Str
  | [] => [cur]
  | nxt :: rest =>
    if mergeCond cur nxt then mfAux (pyStrip (cur ++ ' ' :: nxt)) rest
    else cur :: mfAux nxt rest

/-- `merge_fragments` of the source: single-pass left-to-right merging of
adjacent cells (the merged cell stays the current cell for the next
comparison, as the in-place `row[i+1] = ...` update does). -/
def merge_fragments : List Str → List Str
  | [] => []
  | c :: rest => mfAux c rest

/-- `clean_cell` inside `normalize_table` (for a cell already a string). -/
def clean_cell (s : Str) : Str := pyStrip (fix_glued_domain_terms (clean_text s))

structure PyTable where
  headers : List Str
  rows : List (List Str)
deriving DecidableEq

def dropTrailingEmpty (l : List Str) : List Str :=
  (l.reverse.dropWhile List.isEmpty).reverse

/-- `normalize_table` of the source. -/
def normalize_table (headers : List Str) (rows : List (List Str)) : PyTable :=
  { headers := merge_fragments (headers.map clean_cell),
    rows := rows.map (fun r => dropTrailingEmpty (merge_fragments (r.map clean_cell))) }

/-- A raw table grid from the table-detection collaborator: rows of
optional strings. -/
abbrev RawTable := List (List (Option Str))

def cellBlank : Option Str → Bool
  | none => true
  | some s => (pyStrip s).isEmpty

def allCellsBlank (tbl : RawTable) : Bool := tbl.all (fun row => row.all cellBlank)

/-- The per-raw-table step of `extract_tables`: skip empty/blank grids,
take the first row as header and the rest as data (absent cells become
empty strings), and normalize. -/
def rawToNorm (tbl : RawTable) : Option PyTable :=
  if tbl.isEmpty || allCellsBlank tbl then none
  else
    match tbl with
    | [] => none
    | h :: rest =>
      some (normalize_table (h.map (fun c => c.getD []))
        (rest.map (fun r => r.map (fun c => c.getD []))))

/-- One page's input to `extract_tables`: the result of each of the two
extraction strategies, `none` when that strategy raised an exception
(the source then uses no tables from it). -/
abbrev StratPage := Option (List RawTable) × Option (List RawTable)

def pageCandidates (pr : StratPage) : List PyTable :=
  ((pr.1.getD []) ++ (pr.2.getD [])).filterMap rawToNorm

/-- The fingerprint used for deduplication. -/
def tblKey (t : PyTable) : List Str × Nat := (t.headers, t.rows.length)

/-- The `seen_keys` filter of `extract_tables`: keep the first table per
fingerprint, in order. -/
def dedupTables (seen : List (List Str × Nat)) : List PyTable → List PyTable
  | [] => []
  | t :: ts =>
    if tblKey t ∈ seen then dedupTables seen ts
    else t :: dedupTables (tblKey t :: seen) ts

def extractAux : Nat → List StratPage → List (Nat × List PyTable)
  | _, [] => []
  | i, p :: ps =>
    let pts := dedupTables [] (pageCandidates p)
    if pts.isEmpty then extractAux (i + 1) ps
    else (i, pts) :: extractAux (i + 1) ps

/-- `extract_tables` of the source, over the collaborator's raw grids:
pages are keyed by 0-based index, pages with no kept tables are absent. -/
def extract_tables (inp : List StratPage) : List (Nat × List PyTable) :=
  extractAux 0 inp

example : merge_fragments ["12".toList, "3%Yo".toList, "Y".toList]
    = ["12 3%Yo Y".toList] := by decide

/-- A `ContentItem` of the source (`section` is `section_` here because
`section` is a Lean keyword); `bbox` coordinates are exact rationals. -/
structure ContentItem where
  type : Str
  section_ : Option Str := none
  sub_section : Option Str := none
  text : Option Str := none
  table : Option PyTable := none
  bbox : Option (List ℚ) := none
  meta : Option Str := none
deriving DecidableEq

structure PageOut where
  page_number : Nat
  content : List ContentItem
deriving DecidableEq

/-- The order class of `sort_key`: `{"heading": 0, "paragraph": 1,
"table": 2, "chart": 3}.get(ci.type, 4)`. -/
def orderClass (ty : Str) : Nat :=
  if ty = "heading".toList then 0
  else if ty = "paragraph".toList then 1
  else if ty = "table".toList then 2
  else if ty = "chart".toList then 3
  else 4

/-- `sort_key` of `merge_tables_into_pages`: order class, then the second
bounding-box coordinate, with `1e9` as the sentinel for items without a
usable bounding box. -/
def sortKey (ci : ContentItem) : Nat × ℚ :=
  let y : ℚ :=
    match ci.bbox with
    | some l => if 2 ≤ l.length then l.getD 1 0 else (1000000000 : ℚ)
    | none => (1000000000 : ℚ)
  (orderClass ci.type, y)

/-- Strict lexicographic comparison of sort keys (Python tuple `<`). -/
def keyLtB (a b : Nat × ℚ) : Bool :=
  decide (a.1 < b.1) || (decide (a.1 = b.1) && decide (a.2 < b.2))

/-- Insert an item after every item with a strictly smaller key — placing
it before items with an equal key keeps the sort stable, as Python's
`sorted` is. -/
def insertByKey (x : ContentItem) : List ContentItem → List ContentItem
  | [] => [x]
  | y :: ys =>
    if keyLtB (sortKey y) (sortKey x) then y :: insertByKey x ys
    else x :: y :: ys

/-- Stable sort by `sortKey`, modelling Python's stable `sorted`. -/
def sortByKey : List ContentItem → List ContentItem
  | [] => []
  | x :: xs => insertByKey x (sortByKey xs)

def tableContentItem (t : PyTable) : ContentItem :=
  { type := "table".toList, table := some t }

def tablesFor (tbl : List (Nat × List PyTable)) (i : Nat) : List ContentItem :=
  match tbl.lookup i with
  | some ts => ts.map tableContentItem
  | none => []

def mergeAux (tbl : List (Nat × List PyTable)) : Nat → List PageOut → List PageOut
  | _, [] => []
  | i, p :: ps =>
    { p with content := sortByKey (p.content ++ tablesFor tbl i) } ::
      mergeAux tbl (i + 1) ps

/-- `merge_tables_into_pages` of the source: append each page's tables as
table items (no bounding box), then re-sort every page's content by the
composite key. -/
def merge_tables_into_pages (pages : List PageOut) (tbl : List (Nat × List PyTable)) :
    List PageOut :=
  mergeAux tbl 0 pages

example :
    merge_tables_into_pages
      [⟨1, [{ type := "heading".toList, text := some "H".toList,
              bbox := some [0, 10, 5, 11] },
            { type := "paragraph".toList, text := some "P20".toList,
              bbox := some [0, 20, 5, 21] },
            { type := "paragraph".toList, text := some "P15".toList,
              bbox := some [0, 15, 5, 16] }]⟩]
      [(0, [⟨["T".toList], []⟩])]
    = [⟨1, [{ type := "heading".toList, text := some "H".toList,
              bbox := some [0, 10, 5, 11] },
            { type := "paragraph".toList, text := some "P15".toList,
              bbox := some [0, 15, 5, 16] },
            { type := "paragraph".toList, text := some "P20".toList,
              bbox := some [0, 20, 5, 21] },
            { type := "table".toList, table := some ⟨["T".toList], []⟩ }]⟩] := by
  decide

def isSentPunct (c : Char) : Bool := c = '.' || c = '!' || c = '?'

/-- `re.split(r"(?<=[.!?])\s+(?=[A-Z])", txt)`: split at each maximal
whitespace run that follows end-of-sentence punctuation and precedes an
ASCII uppercase letter.  `acc` is the current piece (reversed); the
optional `Str` is a pending (reversed) whitespace run whose status as a
boundary is not yet decided. -/
def ssAux (acc : Str) (st : Option Str) : Str → List Str
  | [] => [((st.getD []) ++ acc).reverse]
  | c :: rest =>
    match st with
    | some sps =>
      if isPySpace c then ssAux acc (some (c :: sps)) rest
      else if isUpperC c then acc.reverse :: ssAux [c] none rest
      else ssAux (c :: (sps ++ acc)) none rest
    | none =>
      if isPySpace c &&
          (match acc.head? with
           | some p => isSentPunct p
           | none => false) then ssAux acc (some [c]) rest
      else ssAux (c :: acc) none rest

def sentSplit (t : Str) : List Str := ssAux [] none t

/-- The page assembler's closure state: current section, current
sub-section, accumulated items. -/
structure AsmState where
  current_section : Option Str := none
  current_sub : Option Str := none
  items : List ContentItem := []
deriving DecidableEq

def paraItem (st : AsmState) (txt : Str) (bbox : List ℚ) : ContentItem :=
  { type := "paragraph".toList, section_ := st.current_section,
    sub_section := st.current_sub, text := some txt, bbox := some bbox }

/-- `push_text` of `group_page_content`: normalize and domain-fix the text,
drop empty or noise text, update heading state for heading pushes, and for
body pushes emit one paragraph item — or, above 600 characters, one item
per non-empty sentence-split part. -/
def push_text (st : AsmState) (as_heading : Bool) (textOpt : Option Str)
    (bbox : List ℚ) : AsmState :=
  match textOpt with
  | none => st
  | some text =>
    let txt := fix_glued_domain_terms (clean_text text)
    if txt.isEmpty || is_noise txt then st
    else if as_heading then
      match st.current_section with
      | none =>
        { st with current_section := some txt,
                  items := st.items ++
                    [{ type := "heading".toList, section_ := some txt,
                       text := some txt, bbox := some bbox }] }
      | some sec =>
        { st with current_sub := some txt,
                  items := st.items ++
                    [{ type := "heading".toList, section_ := some sec,
                       sub_section := some txt, text := some txt,
                       bbox := some bbox }] }
    else
      if 600 < txt.length then
        { st with items := st.items ++
            (sentSplit txt).filterMap (fun part =>
              let p := pyStrip part
              if p.isEmpty then none else some (paraItem st p bbox)) }
      else { st with items := st.items ++ [paraItem st txt bbox] }

example : sentSplit "Aa. Bb! cc. Dd".toList
    = ["Aa.".toList, "Bb! cc.".toList, "Dd".toList] := by decide

/-- Generic `re.search` driver: try a matcher at every position, leftmost
success wins. -/
def scanFor (tryAt : Str → Option Str) : Str → Option Str
  | [] => tryAt []
  | c :: rest =>
    match tryAt (c :: rest) with
    | some r => some r
    | none => scanFor tryAt rest

/-- `\s*[:\-]?\s*`: optional whitespace, one optional separator, optional
whitespace (greedy). -/
def sepSpaces (s : Str) : Str :=
  let r := s.dropWhile isPySpace
  let r := match r with
           | ':' :: rest => rest
           | '-' :: rest => rest
           | _ => r
  r.dropWhile isPySpace

def monthNames : List Str :=
  ["January".toList, "February".toList, "March".toList, "April".toList,
   "May".toList, "June".toList, "July".toList, "August".toList,
   "September".toList, "October".toList, "November".toList,
   "December".toList]

def fourDigits : Str → Option Str
  | a :: b :: c :: d :: _ =>
    if isDigitC a && isDigitC b && isDigitC c && isDigitC d then
      some [a, b, c, d]
    else none
  | _ => none

/-- `re.search(r"(January|...|December)\s+\d{4}", cover_text)`: the whole
matched text (month, whitespace run, four digits). -/
def monthMatchAt (s : Str) : Option Str :=
  (monthNames.filterMap (fun m =>
    if listBegins m s then
      let after := s.drop m.length
      let sp := after.takeWhile isPySpace
      if sp.isEmpty then none
      else
        match fourDigits (after.dropWhile isPySpace) with
        | some ds => some (m ++ sp ++ ds)
        | none => none
    else none)).head?

def docDateSearch (t : Str) : Option Str := scanFor monthMatchAt t

/-- `\d{1,2},` with greedy backtracking: two digits then a comma, else one
digit then a comma. -/
def digits12 : Str → Option (Str × Str)
  | a :: rest1 =>
    if isDigitC a then
      match rest1 with
      | b :: rest2 =>
        if isDigitC b then
          match rest2 with
          | ',' :: r => some ([a, b], r)
          | _ => none
        else
          match rest1 with
          | ',' :: r => some ([a], r)
          | _ => none
      | [] => none
    else none
  | [] => none

/-- The capture of
`Date of Allotment\s*[:\-]?\s*([A-Za-z]+\s+\d{1,2},\s+\d{4})`, tried at the
position just after the separator. -/
def allotCapture (s : Str) : Option Str :=
  let letters := s.takeWhile isAlphaC
  if letters.isEmpty then none
  else
    let r1 := s.dropWhile isAlphaC
    let sp1 := r1.takeWhile isPySpace
    if sp1.isEmpty then none
    else
      match digits12 (r1.dropWhile isPySpace) with
      | none => none
      | some (ds, r2) =>
        let sp2 := r2.takeWhile isPySpace
        if sp2.isEmpty then none
        else
          match fourDigits (r2.dropWhile isPySpace) with
          | some ys => some (letters ++ sp1 ++ ds ++ ',' :: (sp2 ++ ys))
          | none => none

def allotSearch (t : Str) : Option Str :=
  scanFor (fun s =>
    if listBegins "Date of Allotment".toList s then
      allotCapture (sepSpaces (s.drop 17))
    else none) t

def benchClass (c : Char) : Bool :=
  isAlphaC c || isDigitC c || isPySpace c || c = '-' || c = '&'

def benchCapture (s : Str) : Option Str :=
  let cap := s.takeWhile benchClass
  if cap.isEmpty then none else some cap

/-- `Benchmark(? Index)?\s*[:\-]?\s*([A-Za-z0-9\s\-\&]+)` at one position
(greedy: the optional ` Index` is consumed when possible, retried without
when the rest then fails). -/
def benchTryAt (lit : Str) (s : Str) : Option Str :=
  if listBegins lit s then
    let after := s.drop lit.length
    if listBegins " Index".toList after then
      match benchCapture (sepSpaces (after.drop 6)) with
      | some cap => some cap
      | none => benchCapture (sepSpaces after)
    else benchCapture (sepSpaces after)
  else none

def benchSearch (t : Str) : Option Str := scanFor (benchTryAt "Benchmark".toList) t

def addBenchSearch (t : Str) : Option Str :=
  scanFor (benchTryAt "Additional Benchmark".toList) t

def digitComma (c : Char) : Bool := isDigitC c || c = ','

def curClass (c : Char) : Bool := c = '₹' || c = '`' || c = ' '

/-- The capture of `([\d,]+\.?\d*)\s*crore` (case-insensitive `crore`),
tried at the position after the currency-prefix class. -/
def aumTailCapture (s : Str) : Option Str :=
  let d1 := s.takeWhile digitComma
  if d1.isEmpty then none
  else
    let r1 := s.dropWhile digitComma
    let dotted := match r1 with
                  | '.' :: rest => (['.'], rest)
                  | _ => (([] : Str), r1)
    let d2 := dotted.2.takeWhile isDigitC
    let r3 := dotted.2.dropWhile isDigitC
    if ciBegins "crore".toList (r3.dropWhile isPySpace) then
      some (d1 ++ dotted.1 ++ d2)
    else none

/-- `re.search(r"Net AUM\s*[:\-]?\s*[₹` ]*([\d,]+\.?\d*)\s*crore", text,
re.IGNORECASE)`. -/
def aumSearch (t : Str) : Option Str :=
  scanFor (fun s =>
    if ciBegins "Net AUM".toList s then
      aumTailCapture ((sepSpaces (s.drop 7)).dropWhile curClass)
    else none) t

/-- The `Monthly Average AUM` variant of the same pattern. -/
def monthlyAumSearch (t : Str) : Option Str :=
  scanFor (fun s =>
    if ciBegins "Monthly Average AUM".toList s then
      aumTailCapture ((sepSpaces (s.drop 19)).dropWhile curClass)
    else none) t

def digitDot (c : Char) : Bool := isDigitC c || c = '.'

/-- The capture of `([\d\.]+)%`. -/
def pctCapture (s : Str) : Option Str :=
  let d := s.takeWhile digitDot
  if d.isEmpty then none
  else
    match s.dropWhile digitDot with
    | '%' :: _ => some d
    | _ => none

/-- `re.search(r"Regular Plan\s*[:\-]?\s*([\d\.]+)%", text, re.IGNORECASE)`. -/
def regularSearch (t : Str) : Option Str :=
  scanFor (fun s =>
    if ciBegins "Regular Plan".toList s then pctCapture (sepSpaces (s.drop 12))
    else none) t

/-- `re.search(r"Direct Plan\s*[:\-]?\s*([\d\.]+)%", text, re.IGNORECASE)`. -/
def directSearch (t : Str) : Option Str :=
  scanFor (fun s =>
    if ciBegins "Direct Plan".toList s then pctCapture (sepSpaces (s.drop 11))
    else none) t

def natOfDigits (s : Str) : ℕ := s.foldl (fun n c => 10 * n + (c.toNat - 48)) 0

/-- Python `float(s)` on the digit/dot strings the captures produce, as an
exact rational; `none` models a `ValueError` (swallowed by the source). -/
def pyFloat (s : Str) : Option ℚ :=
  let ip := s.takeWhile isDigitC
  let r1 := s.dropWhile isDigitC
  match r1 with
  | [] => if ip.isEmpty then none else some (natOfDigits ip : ℚ)
  | '.' :: rest =>
    let fp := rest.takeWhile isDigitC
    let r2 := rest.dropWhile isDigitC
    if r2.isEmpty && !(ip.isEmpty && fp.isEmpty) then
      some ((natOfDigits ip : ℚ) + (natOfDigits fp : ℚ) / (10 ^ fp.length))
    else none
  | _ => none

example : aumSearch "Net AUM : Rs 12,345.67 crore".toList = none := by decide
example : aumSearch "Net AUM : ₹ 12,345.67 crore".toList
    = some "12,345.67".toList := by decide

/-- The manager-title alternation `(?:Fund Manager|Co-? ?Fund Manager)`:
the matched length at this position (`Fund Manager` is tried first, as in
the source's alternation). -/
def mgrTitleLen (s : Str) : Option Nat :=
  if listBegins "Fund Manager".toList s then some 12
  else if listBegins "Co-Fund Manager".toList s then some 15
  else if listBegins "Co- Fund Manager".toList s then some 16
  else if listBegins "Co Fund Manager".toList s then some 15
  else if listBegins "CoFund Manager".toList s then some 14
  else none

def nameClass (c : Char) : Bool :=
  isAlphaC c || c = '.' || c = '-' || c = ' '

/-- The capture `([A-Z][A-Za-z\.\- ]{2,})` (greedy) with the remainder of
the string after it. -/
def capName : Str → Option (Str × Str)
  | [] => none
  | c :: rest =>
    if isUpperC c then
      let tl := rest.takeWhile nameClass
      if 2 ≤ tl.length then some (c :: tl, rest.dropWhile nameClass)
      else none
    else none

/-- The honorific alternation `(?:Mr\.|Ms\.|Mrs\.)`: matched length. -/
def honorLen (s : Str) : Option Nat :=
  if listBegins "Mr.".toList s then some 3
  else if listBegins "Ms.".toList s then some 3
  else if listBegins "Mrs.".toList s then some 4
  else none

/-- One-position matcher for the manager pattern
`(?:Fund Manager|Co-? ?Fund Manager)\s*(?:[:\-]?)\s*(?:Mr\.|Ms\.|Mrs\.)?\s*([A-Z][A-Za-z\.\- ]{2,})`;
returns the capture and the remainder after the match.  When the optional
honorific is consumed but no capture follows, the capture is retried
without it (the regex backtracks the same way). -/
def mgrTryAt (s : Str) : Option (Str × Str) :=
  match mgrTitleLen s with
  | none => none
  | some k =>
    let r := sepSpaces (s.drop k)
    match honorLen r with
    | some h =>
      match capName ((r.drop h).dropWhile isPySpace) with
      | some pr => some pr
      | none => capName r
    | none => capName r

/-- One-position matcher for the continuation pattern
`Mr\.?\s*([A-Z][A-Za-z\.\- ]{2,})`. -/
def mrTryAt (s : Str) : Option (Str × Str) :=
  if listBegins "Mr".toList s then
    let r := match s.drop 2 with
             | '.' :: rest => rest
             | _ => s.drop 2
    capName (r.dropWhile isPySpace)
  else none

/-- `re.findall`: repeated leftmost matching, resuming after each match.
The fuel (the string length) only forces structural termination. -/
def findAllAux (tryAt : Str → Option (Str × Str)) : Nat → Str → List Str
  | 0, _ => []
  | _ + 1, [] => []
  | f + 1, c :: rest =>
    match tryAt (c :: rest) with
    | some pr => pr.1 :: findAllAux tryAt f pr.2
    | none => findAllAux tryAt f rest

def findAll (tryAt : Str → Option (Str × Str)) (s : Str) : List Str :=
  findAllAux tryAt s.length s

/-- The role-qualifier alternation `(Equity|Debt|Hybrid|Fixed Income)`:
matched length. -/
def roleAlt (s : Str) : Option Nat :=
  if listBegins "Equity".toList s then some 6
  else if listBegins "Debt".toList s then some 4
  else if listBegins "Hybrid".toList s then some 6
  else if listBegins "Fixed Income".toList s then some 12
  else none

/-- `re.sub(r"\b(Equity|Debt|Hybrid|Fixed Income)\b", "", name)`.  The fuel
(the string length) only forces structural termination. -/
def subRoleAux : Nat → Bool → Str → Str
  | 0, _, l => l
  | _ + 1, _, [] => []
  | f + 1, prevW, c :: rest =>
    match (if prevW then none else roleAlt (c :: rest)) with
    | some k =>
      if boundaryAfter k (c :: rest) then subRoleAux f true (List.drop k (c :: rest))
      else c :: subRoleAux f (isWordC c) rest
    | none => c :: subRoleAux f (isWordC c) rest

def subRole (s : Str) : Str := subRoleAux s.length false s

/-- `re.sub(r"\([^)]*\)", "", name)`: remove each parenthesized group with
a closing parenthesis. -/
def parensAt : Str → Option Str
  | '(' :: rest =>
    (match rest.dropWhile (· != ')') with
     | ')' :: rem => some rem
     | _ => none)
  | _ => none

def remParAux : Nat → Str → Str
  | 0, l => l
  | _ + 1, [] => []
  | f + 1, c :: rest =>
    match parensAt (c :: rest) with
    | some rem => remParAux f rem
    | none => c :: remParAux f rest

def removeParens (s : Str) : Str := remParAux s.length s

/-- `" ".join(s.split())`: whitespace runs collapse to single spaces and
edges are trimmed. -/
def joinSplit (t : Str) : Str := pyStrip (collapseWs t)

/-- `re.sub(r"^(Mr\.|Ms\.|Mrs\.)\s*", "", name)`: drop one leading
honorific and following whitespace. -/
def stripHonor (s : Str) : Str :=
  match honorLen s with
  | some h => (s.drop h).dropWhile isPySpace
  | none => s

/-- The per-candidate cleanup applied to every findall capture: strip role
qualifiers, parenthetical asides, collapse whitespace, drop a leading
honorific. -/
def cleanupName (mname : Str) : Str :=
  stripHonor (joinSplit (pyStrip (removeParens (pyStrip (subRole mname)))))

/-- The `for mname in matches` loop: append each nonempty cleaned name not
seen before, recording it as seen. -/
def addNames (seen mgrs : List Str) : List Str → List Str × List Str
  | [] => (seen, mgrs)
  | m :: rest =>
    let n := cleanupName m
    if n ≠ [] ∧ n ∉ seen then addNames (n :: seen) (mgrs ++ [n]) rest
    else addNames seen mgrs rest

example : findAll mgrTryAt " Fund Manager: Mr. John Smith (Equity)".toList
    = ["John Smith ".toList] := by decide
example : cleanupName "John Smith ".toList = "John Smith".toList := by decide

/-- The flat metadata record of `extract_fund_metadata_from_content`;
numeric fields are exact rationals standing for the parsed floats. -/
structure FundMeta where
  name : Option Str := none
  category : Option Str := none
  aum_crore : Option ℚ := none
  monthly_avg_aum : Option ℚ := none
  expense_ratio_regular : Option ℚ := none
  expense_ratio_direct : Option ℚ := none
  benchmark : Option Str := none
  additional_benchmark : Option Str := none
  date_of_allotment : Option Str := none
  managers : List Str := []
  doc_date : Option Str := none
deriving DecidableEq

/-- The extractor's loop state: the record under construction, the
`seen_managers` set (as a list), and the scratch buffer. -/
structure ExtState where
  meta : FundMeta
  seen : List Str := []
  buffer : Str := []
deriving DecidableEq

/-- Python truthiness of an optional string: `not meta.get(f)` is true for
both an unset field and one holding the empty string. -/
def optStrFalsy : Option Str → Bool
  | none => true
  | some s => s.isEmpty

/-- Python truthiness of an optional number: `not meta.get(f)` is true for
both an unset field and one holding `0.0`. -/
def optQFalsy : Option ℚ → Bool
  | none => true
  | some v => decide (v = 0)

/-- The loop's item filter: only paragraph/heading items with non-empty
text are processed. -/
def textOfItem (c : ContentItem) : Option Str :=
  if c.type = "paragraph".toList ∨ c.type = "heading".toList then
    match c.text with
    | some t => if t.isEmpty then none else some t
    | none => none
  else none

/-- The fund-name rule's condition: contains `FUND` (case-insensitively),
under 120 characters, not starting with `JUNE`. -/
def nameCond (txt : Str) : Bool :=
  hasSub "FUND".toList (pyUpper txt) && decide (txt.length < 120) &&
    !listBegins "JUNE".toList (pyUpper txt)

def applyName (st : ExtState) (txt : Str) : ExtState :=
  { st with meta := { st.meta with
      name := some (pyStrip (joinSplit (subPair isLowerC isUpperC txt))) } }

def catFires (m : FundMeta) (txt : Str) : Bool :=
  !optStrFalsy m.name && optStrFalsy m.category &&
    (let raw := pyStrip txt
     listBegins "(".toList raw && listEnds ")".toList raw)

def applyCategory (st : ExtState) (raw : Str) : ExtState :=
  let cat := fix_glued_domain_terms (clean_text (pyStrip ((raw.drop 1).dropLast)))
  { st with meta := { st.meta with category := some (pyStrip (joinSplit cat)) } }

def applyAllotment (st : ExtState) (txt : Str) : ExtState :=
  if optStrFalsy st.meta.date_of_allotment then
    match allotSearch txt with
    | some cap => { st with meta := { st.meta with date_of_allotment := some cap } }
    | none => st
  else st

def applyBenchmark (st : ExtState) (txt : Str) : ExtState :=
  if optStrFalsy st.meta.benchmark then
    match benchSearch txt with
    | some cap =>
      { st with meta := { st.meta with
          benchmark := some (joinSplit (subPair isLowerC isUpperC cap)) } }
    | none => st
  else st

def applyAddBenchmark (st : ExtState) (txt : Str) : ExtState :=
  if optStrFalsy st.meta.additional_benchmark then
    match addBenchSearch txt with
    | some cap =>
      { st with meta := { st.meta with
          additional_benchmark := some (joinSplit (subPair isLowerC isUpperC cap)) } }
    | none => st
  else st

def applyAum (st : ExtState) (txt : Str) : ExtState :=
  if optQFalsy st.meta.aum_crore then
    match aumSearch txt with
    | some cap =>
      match pyFloat (cap.filter (· != ',')) with
      | some v => { st with meta := { st.meta with aum_crore := some v } }
      | none => st
    | none => st
  else st

def applyMonthly (st : ExtState) (txt : Str) : ExtState :=
  if optQFalsy st.meta.monthly_avg_aum then
    match monthlyAumSearch txt with
    | some cap =>
      match pyFloat (cap.filter (· != ',')) with
      | some v => { st with meta := { st.meta with monthly_avg_aum := some v } }
      | none => st
    | none => st
  else st

def applyRegular (st : ExtState) (txt : Str) : ExtState :=
  if optQFalsy st.meta.expense_ratio_regular then
    match regularSearch txt with
    | some cap =>
      match pyFloat cap with
      | some v => { st with meta := { st.meta with expense_ratio_regular := some v } }
      | none => st
    | none => st
  else st

def applyDirect (st : ExtState) (txt : Str) : ExtState :=
  if optQFalsy st.meta.expense_ratio_direct then
    match directSearch txt with
    | some cap =>
      match pyFloat cap with
      | some v => { st with meta := { st.meta with expense_ratio_direct := some v } }
      | none => st
    | none => st
  else st

/-- The `Fund Manager` rule: append the text to the buffer, extract and
accumulate names, clear the buffer. -/
def applyMgr (st : ExtState) (txt : Str) : ExtState :=
  let res := addNames st.seen st.meta.managers
    (findAll mgrTryAt (st.buffer ++ ' ' :: txt))
  { st with seen := res.1, buffer := [],
            meta := { st.meta with managers := res.2 } }

/-- The `Mr.`-continuation rule: same accumulation with the looser
pattern. -/
def applyMgr2 (st : ExtState) (txt : Str) : ExtState :=
  let res := addNames st.seen st.meta.managers
    (findAll mrTryAt (st.buffer ++ ' ' :: txt))
  { st with seen := res.1, buffer := [],
            meta := { st.meta with managers := res.2 } }

/-- The loop body of `extract_fund_metadata_from_content` for one content
item. -/
def extractStep (st : ExtState) (c : ContentItem) : ExtState :=
  match textOfItem c with
  | none => st
  | some t =>
    let txt := fix_glued_domain_terms (clean_text t)
    if is_noise txt then st
    else if optStrFalsy st.meta.name && nameCond txt then applyName st txt
    else if catFires st.meta txt then applyCategory st (pyStrip txt)
    else
      let st7 := applyDirect (applyRegular (applyMonthly (applyAum
        (applyAddBenchmark (applyBenchmark (applyAllotment st txt) txt) txt)
          txt) txt) txt) txt
      if hasSub "fund manager".toList (pyLower txt) then applyMgr st7 txt
      else if !st7.buffer.isEmpty && listBegins "Mr.".toList txt then
        applyMgr2 st7 txt
      else st7

def pageStep (st : ExtState) (p : PageOut) : ExtState :=
  p.content.foldl extractStep st

/-- `extract_fund_metadata_from_content` of the source. -/
def extract_fund_metadata_from_content (pages : List PageOut) (cover : Str) :
    FundMeta :=
  (pages.foldl pageStep
    { meta := { doc_date := docDateSearch cover } }).meta

def mkPara (s : String) : ContentItem :=
  { type := "paragraph".toList, text := some s.toList }

example :
    (extract_fund_metadata_from_content
        [⟨1, [mkPara "Net AUM : Rs 12,345.67 crore"]⟩] []).aum_crore
      = none := by decide

example :
    (extract_fund_metadata_from_content
        [⟨1, [mkPara "Fund Manager: Mr. John Smith (Equity)"]⟩] []).managers
      = [] := by decide

example :
    (extract_fund_metadata_from_content
        [⟨1, [mkPara "Alpha Fund", mkPara "Fund Manager: Mr. John Smith (Equity)"]⟩]
        []).managers
      = ["John Smith".toList] := by decide

example :
    (extract_fund_metadata_from_content
        [⟨1, [mkPara "Alpha Fund", mkPara "Fund Manager: Mr. John Smith (Equity)",
              mkPara "Fund Manager - Mr. John Smith (Debt)"]⟩] []).managers
      = ["John Smith".toList] := by decide

example :
    (extract_fund_metadata_from_content
        [⟨1, [mkPara "Net AUM : 0 crore"]⟩] []).aum_crore = some 0 := by decide

example :
    (extract_fund_metadata_from_content
        [⟨1, [mkPara "Net AUM : 0 crore", mkPara "Net AUM : 5 crore"]⟩]
        []).aum_crore = some 5 := by decide

/-! ## Claim theorems -/

/-- C3 (counterexample): the header list `["12", "3%Yo", "Y"]` does NOT
merge to `["12", "3%Yo Y"]` — the short-pair rule (`len ≤ 4` / `len ≤ 6`)
already merges `"12"` with `"3%Yo"`, so the first cell does not stay
separate. -/
theorem C3_counterexample :
    merge_fragments ["12".toList, "3%Yo".toList, "Y".toList]
      ≠ ["12".toList, "3%Yo Y".toList] := by decide

/-- C3 (amended): the header list `["12", "3%Yo", "Y"]` merges to the
single cell `["12 3%Yo Y"]`: the short-pair rule merges the first two
cells, then the percent-split rule merges the result with `"Y"`, under the
single-pass left-to-right merge. -/
theorem C3_merge_fragments :
    merge_fragments ["12".toList, "3%Yo".toList, "Y".toList]
      = ["12 3%Yo Y".toList] := by decide

theorem pageCandidates_none_left (s2 : Option (List RawTable)) :
    pageCandidates (none, s2) = pageCandidates (some [], s2) := rfl

theorem pageCandidates_none_right (s1 : Option (List RawTable)) :
    pageCandidates (s1, none) = pageCandidates (s1, some []) := rfl

theorem extractAux_congr_at (a b : StratPage)
    (h : pageCandidates a = pageCandidates b) :
    ∀ (pre : List StratPage) (post : List StratPage) (i : Nat),
      extractAux i (pre ++ a :: post) = extractAux i (pre ++ b :: post) := by
  intro pre
  induction pre with
  | nil =>
    intro post i
    simp only [List.nil_append, extractAux, h]
  | cons p ps ih =>
    intro post i
    simp only [List.cons_append, extractAux, List.append_eq]
    rw [ih post (i + 1)]

/-- C9: if one of the two table-extraction strategies raises for some page
(modelled as `none` input for that strategy on that page), table
extraction behaves exactly as if that strategy had returned no tables:
the whole result — the other strategy's tables for that page and all
other pages — is unchanged, and no failure reaches the caller. -/
theorem C9_strategy_failure_isolation :
    ∀ (pre post : List StratPage) (s1 s2 : Option (List RawTable)),
      extract_tables (pre ++ (none, s2) :: post)
          = extract_tables (pre ++ (some [], s2) :: post)
        ∧ extract_tables (pre ++ (s1, none) :: post)
          = extract_tables (pre ++ (s1, some []) :: post) := by
  intro pre post s1 s2
  constructor
  · exact extractAux_congr_at _ _ (pageCandidates_none_left s2) pre post 0
  · exact extractAux_congr_at _ _ (pageCandidates_none_right s1) pre post 0

theorem dedupTables_sublist (ts : List PyTable) :
    ∀ seen, List.Sublist (dedupTables seen ts) ts := by
  induction ts with
  | nil => intro seen; simp [dedupTables]
  | cons t ts ih =>
    intro seen
    unfold dedupTables
    split
    · exact (ih seen).cons t
    · exact (ih (tblKey t :: seen)).cons₂ t

theorem dedupTables_nodup_keys (ts : List PyTable) :
    ∀ seen, ((dedupTables seen ts).map tblKey).Nodup
      ∧ ∀ t ∈ dedupTables seen ts, tblKey t ∉ seen := by
  induction ts with
  | nil => intro seen; simp [dedupTables]
  | cons t ts ih =>
    intro seen
    unfold dedupTables
    split
    · exact ⟨(ih seen).1, (ih seen).2⟩
    · rename_i hmem
      refine ⟨?_, ?_⟩
      · simp only [List.map_cons, List.nodup_cons]
        refine ⟨?_, (ih (tblKey t :: seen)).1⟩
        intro hk
        rcases List.mem_map.mp hk with ⟨u, hu, hku⟩
        have := (ih (tblKey t :: seen)).2 u hu
        simp only [List.mem_cons] at this
        exact this (Or.inl hku)
      · intro u hu
        simp only [List.mem_cons] at hu
        rcases hu with rfl | hu
        · exact hmem
        · have := (ih (tblKey t :: seen)).2 u hu
          simp only [List.mem_cons] at this
          intro hs
          exact this (Or.inr hs)

theorem dedupTables_covers (ts : List PyTable) :
    ∀ seen t, t ∈ ts → tblKey t ∉ seen →
      ∃ u ∈ dedupTables seen ts, tblKey u = tblKey t := by
  induction ts with
  | nil => intro seen t ht; exact absurd ht (List.not_mem_nil t)
  | cons t' ts ih =>
    intro seen t ht hns
    unfold dedupTables
    split
    · rename_i hmem
      simp only [List.mem_cons] at ht
      rcases ht with rfl | ht
      · exact absurd hmem hns
      · exact ih seen t ht hns
    · rename_i hmem
      simp only [List.mem_cons] at ht
      rcases ht with rfl | ht
      · exact ⟨t, List.mem_cons_self _ _, rfl⟩
      · by_cases hk : tblKey t = tblKey t'
        · exact ⟨t', List.mem_cons_self _ _, hk.symm⟩
        · have hns' : tblKey t ∉ tblKey t' :: seen := by
            simp only [List.mem_cons]
            exact fun h => h.elim hk hns
          rcases ih (tblKey t' :: seen) t ht hns' with ⟨u, hu, hku⟩
          exact ⟨u, List.mem_cons_of_mem _ hu, hku⟩

theorem dedupTables_first (ts : List PyTable) :
    ∀ seen u, u ∈ dedupTables seen ts →
      tblKey u ∉ seen ∧
        ∃ l r, ts = l ++ u :: r ∧ ∀ v ∈ l, tblKey v ≠ tblKey u := by
  induction ts with
  | nil => intro seen u hu; simp [dedupTables] at hu
  | cons t ts ih =>
    intro seen u hu
    unfold dedupTables at hu
    split at hu
    · rename_i hmem
      rcases ih seen u hu with ⟨hns, l, r, rfl, hl⟩
      refine ⟨hns, t :: l, r, rfl, ?_⟩
      intro v hv
      simp only [List.mem_cons] at hv
      rcases hv with rfl | hv
      · intro hkv
        exact hns (hkv ▸ hmem)
      · exact hl v hv
    · rename_i hmem
      simp only [List.mem_cons] at hu
      rcases hu with rfl | hu
      · exact ⟨hmem, [], ts, rfl, by simp⟩
      · rcases ih (tblKey t :: seen) u hu with ⟨hns, l, r, rfl, hl⟩
        simp only [List.mem_cons, not_or] at hns
        refine ⟨hns.2, t :: l, r, rfl, ?_⟩
        intro v hv
        simp only [List.mem_cons] at hv
        rcases hv with rfl | hv
        · exact fun h => hns.1 h.symm
        · exact hl v hv

theorem extractAux_key_lb :
    ∀ (inp : List StratPage) (k : Nat) e, e ∈ extractAux k inp → k ≤ e.1 := by
  intro inp
  induction inp with
  | nil => intro k e he; simp [extractAux] at he
  | cons p ps ih =>
    intro k e he
    simp only [extractAux] at he
    split at he
    · exact Nat.le_of_succ_le (ih (k + 1) e he)
    · simp only [List.mem_cons] at he
      rcases he with rfl | he
      · exact Nat.le_refl k
      · exact Nat.le_of_succ_le (ih (k + 1) e he)

theorem lookup_none_of_lb (k : Nat) :
    ∀ (l : List (Nat × List PyTable)), (∀ e ∈ l, k < e.1) → l.lookup k = none := by
  intro l
  induction l with
  | nil => intro _; rfl
  | cons a tl ih =>
    intro h
    have hk := h a (List.mem_cons_self _ _)
    have hne : (k == a.1) = false := by
      simp only [beq_eq_false_iff_ne, ne_eq]
      omega
    simp only [List.lookup, hne]
    exact ih fun e he => h e (List.mem_cons_of_mem _ he)

theorem extractAux_lookup :
    ∀ (inp : List StratPage) (k i : Nat) (hi : i < inp.length),
      (extractAux k inp).lookup (k + i)
        = (if (dedupTables [] (pageCandidates (inp.get ⟨i, hi⟩))).isEmpty then none
           else some (dedupTables [] (pageCandidates (inp.get ⟨i, hi⟩)))) := by
  intro inp
  induction inp with
  | nil => intro k i hi; simp at hi
  | cons p ps ih =>
    intro k i hi
    match i with
    | 0 =>
      have hget : (p :: ps).get ⟨0, hi⟩ = p := rfl
      rw [hget]
      simp only [Nat.add_zero, extractAux]
      by_cases hemp : (dedupTables [] (pageCandidates p)).isEmpty = true
      · simp only [hemp, if_true]
        exact lookup_none_of_lb k _
          (fun e he => Nat.lt_of_succ_le (extractAux_key_lb ps (k + 1) e he))
      · simp only [hemp, if_false]
        simp [List.lookup]
    | j + 1 =>
      have hj : j < ps.length := Nat.lt_of_succ_lt_succ hi
      have hget : (p :: ps).get ⟨j + 1, hi⟩ = ps.get ⟨j, hj⟩ := rfl
      rw [hget]
      simp only [extractAux]
      by_cases hemp : (dedupTables [] (pageCandidates p)).isEmpty = true
      · simp only [hemp, if_true]
        rw [show k + (j + 1) = (k + 1) + j by omega, ih (k + 1) j hj]
      · simp only [hemp, if_false, List.lookup]
        have hne : (k + (j + 1) == k) = false := by
          simp only [beq_eq_false_iff_ne, ne_eq]
          omega
        simp only [hne]
        rw [show k + (j + 1) = (k + 1) + j by omega, ih (k + 1) j hj]

theorem extractAux_vals_ne_nil :
    ∀ (inp : List StratPage) (k : Nat) e, e ∈ extractAux k inp → e.2 ≠ [] := by
  intro inp
  induction inp with
  | nil => intro k e he; simp [extractAux] at he
  | cons p ps ih =>
    intro k e he
    simp only [extractAux] at he
    split at he
    · exact ih (k + 1) e he
    · rename_i hemp
      simp only [List.mem_cons] at he
      rcases he with rfl | he
      · simpa [List.isEmpty_iff] using hemp
      · exact ih (k + 1) e he

/-- C6: per page, among all raw tables from the two strategies, only the
first table per fingerprint (normalized headers, row count) is kept, in
first-seen order (the kept list is a sublist of the candidates, its
fingerprints are distinct, every candidate's fingerprint is represented,
and every kept table is preceded only by candidates of other
fingerprints); the result maps a page index exactly to its nonempty
deduplicated list (so a key is present only when at least one table was
kept); and two raw tables with identical normalized headers and row count,
differing only in whitespace, collapse to one. -/
theorem C6_table_dedup :
    (∀ (seen : List (List Str × Nat)) ts, List.Sublist (dedupTables seen ts) ts)
    ∧ (∀ ts, ((dedupTables [] ts).map tblKey).Nodup)
    ∧ (∀ ts t, t ∈ ts → ∃ u ∈ dedupTables [] ts, tblKey u = tblKey t)
    ∧ (∀ ts u, u ∈ dedupTables [] ts →
        ∃ l r, ts = l ++ u :: r ∧ ∀ v ∈ l, tblKey v ≠ tblKey u)
    ∧ (∀ (inp : List StratPage) (i : Nat) (hi : i < inp.length),
        (extract_tables inp).lookup i
          = (if (dedupTables [] (pageCandidates (inp.get ⟨i, hi⟩))).isEmpty then none
             else some (dedupTables [] (pageCandidates (inp.get ⟨i, hi⟩)))))
    ∧ (∀ inp e, e ∈ extract_tables inp → e.2 ≠ [])
    ∧ extract_tables
        [(some [[[some "Alpha  Beta".toList], [some "1".toList]]],
          some [[[some "Alpha Beta".toList], [some "1".toList]]])]
        = [(0, [⟨["Alpha Beta".toList], [["1".toList]]⟩])] := by
  refine ⟨fun seen ts => dedupTables_sublist ts seen,
          fun ts => (dedupTables_nodup_keys ts []).1,
          fun ts t ht => dedupTables_covers ts [] t ht (by simp),
          fun ts u hu => ((dedupTables_first ts [] u hu).2),
          fun inp i hi => by
            have h := extractAux_lookup inp 0 i hi
            simpa using h,
          fun inp => extractAux_vals_ne_nil inp 0,
          by decide⟩

theorem C6_witness :
    ((extract_tables
        [(some [[[some "A".toList], [some "1".toList]]],
          none)]).lookup 0
      = some [⟨["A".toList], [["1".toList]]⟩])
    ∧ (∃ u ∈ dedupTables []
          [(⟨["A".toList], [["1".toList]]⟩ : PyTable),
           (⟨["A".toList], [["2".toList]]⟩ : PyTable)],
        tblKey u = tblKey (⟨["A".toList], [["2".toList]]⟩ : PyTable)) := by
  constructor
  · have h := C6_table_dedup.2.2.2.2.1
      [(some [[[some "A".toList], [some "1".toList]]], none)] 0 (by decide)
    rw [h]
    decide
  · exact C6_table_dedup.2.2.1
      [⟨["A".toList], [["1".toList]]⟩, ⟨["A".toList], [["2".toList]]⟩]
      ⟨["A".toList], [["2".toList]]⟩ (by decide)

/-- The composite-key order as a proposition (Python tuple `≤`,
lexicographic). -/
def keyLe (a b : Nat × ℚ) : Prop := a.1 < b.1 ∨ (a.1 = b.1 ∧ a.2 ≤ b.2)

theorem keyLe_of_ltB {a b : Nat × ℚ} (h : keyLtB a b = true) : keyLe a b := by
  simp only [keyLtB, Bool.or_eq_true, Bool.and_eq_true, decide_eq_true_eq] at h
  rcases h with h | ⟨h1, h2⟩
  · exact Or.inl h
  · exact Or.inr ⟨h1, le_of_lt h2⟩

theorem keyLe_of_not_ltB {a b : Nat × ℚ} (h : keyLtB b a = false) : keyLe a b := by
  simp only [keyLtB, Bool.or_eq_false_iff, Bool.and_eq_false_iff,
    decide_eq_false_iff_not] at h
  rcases h with ⟨h1, h2⟩
  rcases Nat.lt_trichotomy a.1 b.1 with hlt | heq | hgt
  · exact Or.inl hlt
  · refine Or.inr ⟨heq, ?_⟩
    rcases h2 with h2 | h2
    · exact absurd heq.symm h2
    · exact le_of_not_lt h2
  · exact absurd hgt h1

theorem keyLe_trans {a b c : Nat × ℚ} (h1 : keyLe a b) (h2 : keyLe b c) :
    keyLe a c := by
  rcases h1 with h1 | ⟨e1, l1⟩ <;> rcases h2 with h2 | ⟨e2, l2⟩
  · exact Or.inl (h1.trans h2)
  · exact Or.inl (e2 ▸ h1)
  · exact Or.inl (e1 ▸ h2)
  · exact Or.inr ⟨e1.trans e2, l1.trans l2⟩

theorem keyLtB_irrefl (a : Nat × ℚ) : keyLtB a a = false := by
  simp [keyLtB]

def keyOrdered (l : List ContentItem) : Prop :=
  l.Pairwise (fun a b => keyLe (sortKey a) (sortKey b))

theorem mem_insertByKey {x z : ContentItem} :
    ∀ l, z ∈ insertByKey x l ↔ z = x ∨ z ∈ l := by
  intro l
  induction l with
  | nil => simp [insertByKey]
  | cons y ys ih =>
    simp only [insertByKey]
    split
    · simp only [List.mem_cons, ih]
      tauto
    · simp only [List.mem_cons]

theorem keyOrdered_insertByKey (x : ContentItem) :
    ∀ l, keyOrdered l → keyOrdered (insertByKey x l) := by
  intro l
  induction l with
  | nil => intro _; simp [insertByKey, keyOrdered]
  | cons y ys ih =>
    intro h
    rcases List.pairwise_cons.mp h with ⟨hy, hys⟩
    simp only [insertByKey]
    split
    · rename_i hlt
      refine List.pairwise_cons.mpr ⟨?_, ih hys⟩
      intro z hz
      rcases (mem_insertByKey _).mp hz with rfl | hz
      · exact keyLe_of_ltB hlt
      · exact hy z hz
    · rename_i hnlt
      refine List.pairwise_cons.mpr ⟨?_, h⟩
      intro z hz
      rcases List.mem_cons.mp hz with rfl | hz
      · exact keyLe_of_not_ltB (Bool.not_eq_true _ ▸ Bool.of_not_eq_true hnlt)
      · exact keyLe_trans
          (keyLe_of_not_ltB (Bool.not_eq_true _ ▸ Bool.of_not_eq_true hnlt))
          (hy z hz)

theorem keyOrdered_sortByKey : ∀ l, keyOrdered (sortByKey l) := by
  intro l
  induction l with
  | nil => simp [sortByKey, keyOrdered]
  | cons x xs ih => exact keyOrdered_insertByKey x _ ih

theorem filter_insertByKey (k : Nat × ℚ) (x : ContentItem) :
    ∀ l, (insertByKey x l).filter (fun z => decide (sortKey z = k))
      = (x :: l).filter (fun z => decide (sortKey z = k)) := by
  intro l
  induction l with
  | nil => simp [insertByKey]
  | cons y ys ih =>
    simp only [insertByKey]
    split
    · rename_i hlt
      by_cases hx : sortKey x = k
      · by_cases hy : sortKey y = k
        · exfalso
          rw [hx] at hlt
          rw [hy] at hlt
          simp [keyLtB_irrefl] at hlt
        · simp only [List.filter, hy, decide_eq_true_eq, decide_eq_false hy]
          rw [ih]
          simp [List.filter, hx, hy]
      · by_cases hy : sortKey y = k
        · simp only [List.filter, decide_eq_true hy, decide_eq_false hx]
          rw [ih]
          simp [List.filter, hx, hy]
        · simp only [List.filter, decide_eq_false hy, decide_eq_false hx]
          rw [ih]
          simp [List.filter, hx, hy]
    · rfl

theorem filter_sortByKey (k : Nat × ℚ) :
    ∀ l, (sortByKey l).filter (fun z => decide (sortKey z = k))
      = l.filter (fun z => decide (sortKey z = k)) := by
  intro l
  induction l with
  | nil => rfl
  | cons x xs ih =>
    simp only [sortByKey]
    rw [filter_insertByKey]
    simp only [List.filter]
    rw [ih]

theorem mergeAux_length (tbl : List (Nat × List PyTable)) :
    ∀ (ps : List PageOut) (k : Nat), (mergeAux tbl k ps).length = ps.length := by
  intro ps
  induction ps with
  | nil => intro k; rfl
  | cons p ps ih => intro k; simp only [mergeAux, List.length_cons, ih]

theorem mergeAux_get (tbl : List (Nat × List PyTable)) :
    ∀ (ps : List PageOut) (k i : Nat) (hi : i < ps.length)
      (hj : i < (mergeAux tbl k ps).length),
      (mergeAux tbl k ps).get ⟨i, hj⟩
        = { ps.get ⟨i, hi⟩ with
            content := sortByKey ((ps.get ⟨i, hi⟩).content ++ tablesFor tbl (k + i)) } := by
  intro ps
  induction ps with
  | nil => intro k i hi; simp at hi
  | cons p ps ih =>
    intro k i hi hj
    match i with
    | 0 => rfl
    | j + 1 =>
      have hj' : j < ps.length := Nat.lt_of_succ_lt_succ hi
      have hj2 : j < (mergeAux tbl (k + 1) ps).length := by
        rw [mergeAux_length]; exact hj'
      have h1 : (mergeAux tbl k (p :: ps)).get ⟨j + 1, hj⟩
          = (mergeAux tbl (k + 1) ps).get ⟨j, hj2⟩ := rfl
      have h2 : (p :: ps).get ⟨j + 1, hi⟩ = ps.get ⟨j, hj'⟩ := rfl
      rw [h1, h2, ih (k + 1) j hj' hj2, show k + 1 + j = k + (j + 1) by omega]

/-- C5: after merging tables into pages, every page's content equals the
stable sort, by the composite key (order class heading=0 / paragraph=1 /
table=2 / chart=3, then vertical top coordinate with sentinel `1e9` for
items without a usable bounding box), of its original content followed by
its appended table items; the sort output is ordered by that key and
stable (items with identical keys keep their original relative order); and
the page with a heading at top 10, paragraphs at tops 20 and 15 and a
positionless table orders as heading, paragraph(15), paragraph(20),
table. -/
theorem C5_reading_order :
    (∀ (pages : List PageOut) (tbl : List (Nat × List PyTable)) (i : Nat)
        (hi : i < pages.length)
        (hj : i < (merge_tables_into_pages pages tbl).length),
        (merge_tables_into_pages pages tbl).get ⟨i, hj⟩
          = { pages.get ⟨i, hi⟩ with
              content := sortByKey ((pages.get ⟨i, hi⟩).content ++ tablesFor tbl i) })
    ∧ (∀ l, keyOrdered (sortByKey l))
    ∧ (∀ (l : List ContentItem) (k : Nat × ℚ),
        (sortByKey l).filter (fun z => decide (sortKey z = k))
          = l.filter (fun z => decide (sortKey z = k)))
    ∧ merge_tables_into_pages
        [⟨1, [{ type := "heading".toList, text := some "H".toList,
                bbox := some [0, 10, 5, 11] },
              { type := "paragraph".toList, text := some "P20".toList,
                bbox := some [0, 20, 5, 21] },
              { type := "paragraph".toList, text := some "P15".toList,
                bbox := some [0, 15, 5, 16] }]⟩]
        [(0, [⟨["T".toList], []⟩])]
      = [⟨1, [{ type := "heading".toList, text := some "H".toList,
                bbox := some [0, 10, 5, 11] },
              { type := "paragraph".toList, text := some "P15".toList,
                bbox := some [0, 15, 5, 16] },
              { type := "paragraph".toList, text := some "P20".toList,
                bbox := some [0, 20, 5, 21] },
              { type := "table".toList, table := some ⟨["T".toList], []⟩ }]⟩] := by
  refine ⟨?_, keyOrdered_sortByKey, fun l k => filter_sortByKey k l, by decide⟩
  intro pages tbl i hi hj
  have h := mergeAux_get tbl pages 0 i hi (by simpa [merge_tables_into_pages] using hj)
  simpa [merge_tables_into_pages] using h

theorem C5_witness :
    (merge_tables_into_pages
        [⟨1, [{ type := "paragraph".toList, text := some "B".toList,
                bbox := some [0, 7, 1, 8] }]⟩]
        []).get ⟨0, by decide⟩
      = ⟨1, [{ type := "paragraph".toList, text := some "B".toList,
               bbox := some [0, 7, 1, 8] }]⟩ := by
  have h := C5_reading_order.1
    [⟨1, [{ type := "paragraph".toList, text := some "B".toList,
            bbox := some [0, 7, 1, 8] }]⟩]
    [] 0 (by decide) (by decide)
  rw [h]
  decide

theorem filterMap_paraItems (st : AsmState) (bbox : List ℚ) :
    ∀ (l : List Str),
      (l.filterMap (fun part =>
        let p := pyStrip part
        if p.isEmpty then none else some (paraItem st p bbox)))
      = ((l.map pyStrip).filter (fun p => !p.isEmpty)).map
          (fun p => paraItem st p bbox) := by
  intro l
  induction l with
  | nil => rfl
  | cons a l ih =>
    simp only [List.filterMap_cons, List.map_cons, List.filter_cons]
    simp only [List.isEmpty_iff] at ih
    by_cases h : pyStrip a = []
    · simp [h, ih]
    · simp [h, ih]

/-- The three sentence-like parts of the 650-character example body run:
two 216-character sentences ending in a period, and a 216-character
tail, joined by single spaces. -/
def part216 : Str := 'Z' :: (List.replicate 214 'z' ++ ['.'])

def tail216 : Str := 'Z' :: List.replicate 215 'z'

def body650 : Str := part216 ++ ' ' :: (part216 ++ ' ' :: tail216)

/-- C8: a body push whose cleaned text exceeds 600 characters emits one
paragraph item per non-empty stripped sentence-split part (boundaries:
end-of-sentence punctuation, whitespace, capital); text of at most 600
characters yields a single paragraph item; and the 650-character body run
with exactly two such boundaries yields exactly 3 paragraph items. -/
theorem C8_paragraph_splitting :
    (∀ (st : AsmState) (bbox : List ℚ) (t : Str),
        is_noise (fix_glued_domain_terms (clean_text t)) = false →
        600 < (fix_glued_domain_terms (clean_text t)).length →
        (push_text st false (some t) bbox).items
          = st.items ++
            ((((sentSplit (fix_glued_domain_terms (clean_text t))).map pyStrip).filter
                (fun p => !p.isEmpty)).map (fun p => paraItem st p bbox)))
    ∧ (∀ (st : AsmState) (bbox : List ℚ) (t : Str),
        (fix_glued_domain_terms (clean_text t)).isEmpty = false →
        is_noise (fix_glued_domain_terms (clean_text t)) = false →
        ¬ 600 < (fix_glued_domain_terms (clean_text t)).length →
        (push_text st false (some t) bbox).items
          = st.items ++ [paraItem st (fix_glued_domain_terms (clean_text t)) bbox])
    ∧ body650.length = 650
    ∧ fix_glued_domain_terms (clean_text body650) = body650
    ∧ (sentSplit body650).length = 3
    ∧ (push_text {} false (some body650) [0, 0, 0, 0]).items
        = [paraItem {} part216 [0, 0, 0, 0], paraItem {} part216 [0, 0, 0, 0],
           paraItem {} tail216 [0, 0, 0, 0]] := by
  refine ⟨?_, ?_, by decide, by decide, by decide, by decide⟩
  · intro st bbox t hn hl
    have hne : (fix_glued_domain_terms (clean_text t)).isEmpty = false := by
      cases h : fix_glued_domain_terms (clean_text t) with
      | nil => rw [h] at hl; simp at hl
      | cons c r => rfl
    simp only [push_text, hne, hn, Bool.or_self, if_false, Bool.false_eq_true,
      if_pos hl]
    rw [filterMap_paraItems]
  · intro st bbox t hne hn hl
    simp only [push_text, hne, hn, Bool.or_self, if_false, Bool.false_eq_true,
      if_neg hl]

theorem C8_witness :
    (push_text {} false (some "Hello world".toList) [1, 2, 3, 4]).items
      = [paraItem {} "Hello world".toList [1, 2, 3, 4]] := by
  have hfix : fix_glued_domain_terms (clean_text "Hello world".toList)
      = "Hello world".toList := by decide
  have h := C8_paragraph_splitting.2.1 {} [1, 2, 3, 4] "Hello world".toList
    (by decide) (by decide) (by decide)
  rw [hfix] at h
  simpa using h

/-- Truthy first-match-wins preservation between two extractor states:
every scalar field holding a truthy value (nonempty string / nonzero
number) keeps it, and `doc_date` is untouched. -/
def ScalarPreserved (a b : ExtState) : Prop :=
  (∀ v : Str, v ≠ [] → a.meta.name = some v → b.meta.name = some v) ∧
  (∀ v : Str, v ≠ [] → a.meta.category = some v → b.meta.category = some v) ∧
  (∀ v : ℚ, v ≠ 0 → a.meta.aum_crore = some v → b.meta.aum_crore = some v) ∧
  (∀ v : ℚ, v ≠ 0 → a.meta.monthly_avg_aum = some v →
    b.meta.monthly_avg_aum = some v) ∧
  (∀ v : ℚ, v ≠ 0 → a.meta.expense_ratio_regular = some v →
    b.meta.expense_ratio_regular = some v) ∧
  (∀ v : ℚ, v ≠ 0 → a.meta.expense_ratio_direct = some v →
    b.meta.expense_ratio_direct = some v) ∧
  (∀ v : Str, v ≠ [] → a.meta.benchmark = some v → b.meta.benchmark = some v) ∧
  (∀ v : Str, v ≠ [] → a.meta.additional_benchmark = some v →
    b.meta.additional_benchmark = some v) ∧
  (∀ v : Str, v ≠ [] → a.meta.date_of_allotment = some v →
    b.meta.date_of_allotment = some v) ∧
  b.meta.doc_date = a.meta.doc_date

theorem ScalarPreserved.rfl' (a : ExtState) : ScalarPreserved a a := by
  refine ⟨?_, ?_, ?_, ?_, ?_, ?_, ?_, ?_, ?_, rfl⟩ <;> intro v _ hv <;> exact hv

theorem ScalarPreserved.trans' {a b c : ExtState}
    (h1 : ScalarPreserved a b) (h2 : ScalarPreserved b c) : ScalarPreserved a c := by
  obtain ⟨a1, a2, a3, a4, a5, a6, a7, a8, a9, a10⟩ := h1
  obtain ⟨b1, b2, b3, b4, b5, b6, b7, b8, b9, b10⟩ := h2
  exact ⟨fun v hv h => b1 v hv (a1 v hv h),
         fun v hv h => b2 v hv (a2 v hv h),
         fun v hv h => b3 v hv (a3 v hv h),
         fun v hv h => b4 v hv (a4 v hv h),
         fun v hv h => b5 v hv (a5 v hv h),
         fun v hv h => b6 v hv (a6 v hv h),
         fun v hv h => b7 v hv (a7 v hv h),
         fun v hv h => b8 v hv (a8 v hv h),
         fun v hv h => b9 v hv (a9 v hv h),
         b10.trans a10⟩

theorem optStrFalsy_some {v : Str} (hv : v ≠ []) :
    optStrFalsy (some v) = false := by
  simp [optStrFalsy, List.isEmpty_iff, hv]

theorem optQFalsy_some {v : ℚ} (hv : v ≠ 0) : optQFalsy (some v) = false := by
  simp [optQFalsy, hv]

theorem sp_applyName (st : ExtState) (txt : Str)
    (h : optStrFalsy st.meta.name = true) :
    ScalarPreserved st (applyName st txt) := by
  refine ⟨?_, ?_, ?_, ?_, ?_, ?_, ?_, ?_, ?_, rfl⟩ <;> intro v hv hs
  · rw [hs, optStrFalsy_some hv] at h
    exact absurd h (by simp)
  all_goals exact hs

theorem sp_applyCategory (st : ExtState) (raw : Str)
    (h : optStrFalsy st.meta.category = true) :
    ScalarPreserved st (applyCategory st raw) := by
  refine ⟨?_, ?_, ?_, ?_, ?_, ?_, ?_, ?_, ?_, rfl⟩ <;> intro v hv hs
  · exact hs
  · rw [hs, optStrFalsy_some hv] at h
    exact absurd h (by simp)
  all_goals exact hs


theorem applyAllotment_meta (st : ExtState) (txt : Str) :
    (applyAllotment st txt).meta = { st.meta with date_of_allotment := (applyAllotment st txt).meta.date_of_allotment } := by
  unfold applyAllotment
  split <;> (try split) <;> (try split) <;> rfl

theorem applyAllotment_st (st : ExtState) (txt : Str) :
    (applyAllotment st txt).buffer = st.buffer ∧ (applyAllotment st txt).seen = st.seen := by
  unfold applyAllotment
  split <;> (try split) <;> (try split) <;> exact ⟨rfl, rfl⟩

theorem applyAllotment_own (st : ExtState) (txt : Str) (v : Str) (hv : v ≠ [])
    (hs : st.meta.date_of_allotment = some v) : (applyAllotment st txt).meta.date_of_allotment = some v := by
  unfold applyAllotment
  rw [hs, optStrFalsy_some hv]
  simpa using hs

theorem sp_applyAllotment (st : ExtState) (txt : Str) :
    ScalarPreserved st (applyAllotment st txt) := by
  have hm := applyAllotment_meta st txt
  refine ⟨?_, ?_, ?_, ?_, ?_, ?_, ?_, ?_, ?_, ?_⟩
  · intro v hv hs
    rw [hm]
    exact hs
  · intro v hv hs
    rw [hm]
    exact hs
  · intro v hv hs
    rw [hm]
    exact hs
  · intro v hv hs
    rw [hm]
    exact hs
  · intro v hv hs
    rw [hm]
    exact hs
  · intro v hv hs
    rw [hm]
    exact hs
  · intro v hv hs
    rw [hm]
    exact hs
  · intro v hv hs
    rw [hm]
    exact hs
  · intro v hv hs
    exact applyAllotment_own st txt v hv hs
  · rw [hm]

theorem applyBenchmark_meta (st : ExtState) (txt : Str) :
    (applyBenchmark st txt).meta = { st.meta with benchmark := (applyBenchmark st txt).meta.benchmark } := by
  unfold applyBenchmark
  split <;> (try split) <;> (try split) <;> rfl

theorem applyBenchmark_st (st : ExtState) (txt : Str) :
    (applyBenchmark st txt).buffer = st.buffer ∧ (applyBenchmark st txt).seen = st.seen := by
  unfold applyBenchmark
  split <;> (try split) <;> (try split) <;> exact ⟨rfl, rfl⟩

theorem applyBenchmark_own (st : ExtState) (txt : Str) (v : Str) (hv : v ≠ [])
    (hs : st.meta.benchmark = some v) : (applyBenchmark st txt).meta.benchmark = some v := by
  unfold applyBenchmark
  rw [hs, optStrFalsy_some hv]
  simpa using hs

theorem sp_applyBenchmark (st : ExtState) (txt : Str) :
    ScalarPreserved st (applyBenchmark st txt) := by
  have hm := applyBenchmark_meta st txt
  refine ⟨?_, ?_, ?_, ?_, ?_, ?_, ?_, ?_, ?_, ?_⟩
  · intro v hv hs
    rw [hm]
    exact hs
  · intro v hv hs
    rw [hm]
    exact hs
  · intro v hv hs
    rw [hm]
    exact hs
  · intro v hv hs
    rw [hm]
    exact hs
  · intro v hv hs
    rw [hm]
    exact hs
  · intro v hv hs
    rw [hm]
    exact hs
  · intro v hv hs
    exact applyBenchmark_own st txt v hv hs
  · intro v hv hs
    rw [hm]
    exact hs
  · intro v hv hs
    rw [hm]
    exact hs
  · rw [hm]

theorem applyAddBenchmark_meta (st : ExtState) (txt : Str) :
    (applyAddBenchmark st txt).meta = { st.meta with additional_benchmark := (applyAddBenchmark st txt).meta.additional_benchmark } := by
  unfold applyAddBenchmark
  split <;> (try split) <;> (try split) <;> rfl

theorem applyAddBenchmark_st (st : ExtState) (txt : Str) :
    (applyAddBenchmark st txt).buffer = st.buffer ∧ (applyAddBenchmark st txt).seen = st.seen := by
  unfold applyAddBenchmark
  split <;> (try split) <;> (try split) <;> exact ⟨rfl, rfl⟩

theorem applyAddBenchmark_own (st : ExtState) (txt : Str) (v : Str) (hv : v ≠ [])
    (hs : st.meta.additional_benchmark = some v) : (applyAddBenchmark st txt).meta.additional_benchmark = some v := by
  unfold applyAddBenchmark
  rw [hs, optStrFalsy_some hv]
  simpa using hs

theorem sp_applyAddBenchmark (st : ExtState) (txt : Str) :
    ScalarPreserved st (applyAddBenchmark st txt) := by
  have hm := applyAddBenchmark_meta st txt
  refine ⟨?_, ?_, ?_, ?_, ?_, ?_, ?_, ?_, ?_, ?_⟩
  · intro v hv hs
    rw [hm]
    exact hs
  · intro v hv hs
    rw [hm]
    exact hs
  · intro v hv hs
    rw [hm]
    exact hs
  · intro v hv hs
    rw [hm]
    exact hs
  · intro v hv hs
    rw [hm]
    exact hs
  · intro v hv hs
    rw [hm]
    exact hs
  · intro v hv hs
    rw [hm]
    exact hs
  · intro v hv hs
    exact applyAddBenchmark_own st txt v hv hs
  · intro v hv hs
    rw [hm]
    exact hs
  · rw [hm]

theorem applyAum_meta (st : ExtState) (txt : Str) :
    (applyAum st txt).meta = { st.meta with aum_crore := (applyAum st txt).meta.aum_crore } := by
  unfold applyAum
  split <;> (try split) <;> (try split) <;> rfl

theorem applyAum_st (st : ExtState) (txt : Str) :
    (applyAum st txt).buffer = st.buffer ∧ (applyAum st txt).seen = st.seen := by
  unfold applyAum
  split <;> (try split) <;> (try split) <;> exact ⟨rfl, rfl⟩

theorem applyAum_own (st : ExtState) (txt : Str) (v : ℚ) (hv : v ≠ 0)
    (hs : st.meta.aum_crore = some v) : (applyAum st txt).meta.aum_crore = some v := by
  unfold applyAum
  rw [hs, optQFalsy_some hv]
  simpa using hs

theorem sp_applyAum (st : ExtState) (txt : Str) :
    ScalarPreserved st (applyAum st txt) := by
  have hm := applyAum_meta st txt
  refine ⟨?_, ?_, ?_, ?_, ?_, ?_, ?_, ?_, ?_, ?_⟩
  · intro v hv hs
    rw [hm]
    exact hs
  · intro v hv hs
    rw [hm]
    exact hs
  · intro v hv hs
    exact applyAum_own st txt v hv hs
  · intro v hv hs
    rw [hm]
    exact hs
  · intro v hv hs
    rw [hm]
    exact hs
  · intro v hv hs
    rw [hm]
    exact hs
  · intro v hv hs
    rw [hm]
    exact hs
  · intro v hv hs
    rw [hm]
    exact hs
  · intro v hv hs
    rw [hm]
    exact hs
  · rw [hm]

theorem applyMonthly_meta (st : ExtState) (txt : Str) :
    (applyMonthly st txt).meta = { st.meta with monthly_avg_aum := (applyMonthly st txt).meta.monthly_avg_aum } := by
  unfold applyMonthly
  split <;> (try split) <;> (try split) <;> rfl

theorem applyMonthly_st (st : ExtState) (txt : Str) :
    (applyMonthly st txt).buffer = st.buffer ∧ (applyMonthly st txt).seen = st.seen := by
  unfold applyMonthly
  split <;> (try split) <;> (try split) <;> exact ⟨rfl, rfl⟩

theorem applyMonthly_own (st : ExtState) (txt : Str) (v : ℚ) (hv : v ≠ 0)
    (hs : st.meta.monthly_avg_aum = some v) : (applyMonthly st txt).meta.monthly_avg_aum = some v := by
  unfold applyMonthly
  rw [hs, optQFalsy_some hv]
  simpa using hs

theorem sp_applyMonthly (st : ExtState) (txt : Str) :
    ScalarPreserved st (applyMonthly st txt) := by
  have hm := applyMonthly_meta st txt
  refine ⟨?_, ?_, ?_, ?_, ?_, ?_, ?_, ?_, ?_, ?_⟩
  · intro v hv hs
    rw [hm]
    exact hs
  · intro v hv hs
    rw [hm]
    exact hs
  · intro v hv hs
    rw [hm]
    exact hs
  · intro v hv hs
    exact applyMonthly_own st txt v hv hs
  · intro v hv hs
    rw [hm]
    exact hs
  · intro v hv hs
    rw [hm]
    exact hs
  · intro v hv hs
    rw [hm]
    exact hs
  · intro v hv hs
    rw [hm]
    exact hs
  · intro v hv hs
    rw [hm]
    exact hs
  · rw [hm]

theorem applyRegular_meta (st : ExtState) (txt : Str) :
    (applyRegular st txt).meta = { st.meta with expense_ratio_regular := (applyRegular st txt).meta.expense_ratio_regular } := by
  unfold applyRegular
  split <;> (try split) <;> (try split) <;> rfl

theorem applyRegular_st (st : ExtState) (txt : Str) :
    (applyRegular st txt).buffer = st.buffer ∧ (applyRegular st txt).seen = st.seen := by
  unfold applyRegular
  split <;> (try split) <;> (try split) <;> exact ⟨rfl, rfl⟩

theorem applyRegular_own (st : ExtState) (txt : Str) (v : ℚ) (hv : v ≠ 0)
    (hs : st.meta.expense_ratio_regular = some v) : (applyRegular st txt).meta.expense_ratio_regular = some v := by
  unfold applyRegular
  rw [hs, optQFalsy_some hv]
  simpa using hs

theorem sp_applyRegular (st : ExtState) (txt : Str) :
    ScalarPreserved st (applyRegular st txt) := by
  have hm := applyRegular_meta st txt
  refine ⟨?_, ?_, ?_, ?_, ?_, ?_, ?_, ?_, ?_, ?_⟩
  · intro v hv hs
    rw [hm]
    exact hs
  · intro v hv hs
    rw [hm]
    exact hs
  · intro v hv hs
    rw [hm]
    exact hs
  · intro v hv hs
    rw [hm]
    exact hs
  · intro v hv hs
    exact applyRegular_own st txt v hv hs
  · intro v hv hs
    rw [hm]
    exact hs
  · intro v hv hs
    rw [hm]
    exact hs
  · intro v hv hs
    rw [hm]
    exact hs
  · intro v hv hs
    rw [hm]
    exact hs
  · rw [hm]

theorem applyDirect_meta (st : ExtState) (txt : Str) :
    (applyDirect st txt).meta = { st.meta with expense_ratio_direct := (applyDirect st txt).meta.expense_ratio_direct } := by
  unfold applyDirect
  split <;> (try split) <;> (try split) <;> rfl

theorem applyDirect_st (st : ExtState) (txt : Str) :
    (applyDirect st txt).buffer = st.buffer ∧ (applyDirect st txt).seen = st.seen := by
  unfold applyDirect
  split <;> (try split) <;> (try split) <;> exact ⟨rfl, rfl⟩

theorem applyDirect_own (st : ExtState) (txt : Str) (v : ℚ) (hv : v ≠ 0)
    (hs : st.meta.expense_ratio_direct = some v) : (applyDirect st txt).meta.expense_ratio_direct = some v := by
  unfold applyDirect
  rw [hs, optQFalsy_some hv]
  simpa using hs

theorem sp_applyDirect (st : ExtState) (txt : Str) :
    ScalarPreserved st (applyDirect st txt) := by
  have hm := applyDirect_meta st txt
  refine ⟨?_, ?_, ?_, ?_, ?_, ?_, ?_, ?_, ?_, ?_⟩
  · intro v hv hs
    rw [hm]
    exact hs
  · intro v hv hs
    rw [hm]
    exact hs
  · intro v hv hs
    rw [hm]
    exact hs
  · intro v hv hs
    rw [hm]
    exact hs
  · intro v hv hs
    rw [hm]
    exact hs
  · intro v hv hs
    exact applyDirect_own st txt v hv hs
  · intro v hv hs
    rw [hm]
    exact hs
  · intro v hv hs
    rw [hm]
    exact hs
  · intro v hv hs
    rw [hm]
    exact hs
  · rw [hm]

theorem applyAllotment_keeps_name (st : ExtState) (txt : Str) :
    (applyAllotment st txt).meta.name = st.meta.name := by
  rw [applyAllotment_meta]

theorem applyAllotment_keeps_category (st : ExtState) (txt : Str) :
    (applyAllotment st txt).meta.category = st.meta.category := by
  rw [applyAllotment_meta]

theorem applyAllotment_keeps_aum_crore (st : ExtState) (txt : Str) :
    (applyAllotment st txt).meta.aum_crore = st.meta.aum_crore := by
  rw [applyAllotment_meta]

theorem applyAllotment_keeps_monthly_avg_aum (st : ExtState) (txt : Str) :
    (applyAllotment st txt).meta.monthly_avg_aum = st.meta.monthly_avg_aum := by
  rw [applyAllotment_meta]

theorem applyAllotment_keeps_expense_ratio_regular (st : ExtState) (txt : Str) :
    (applyAllotment st txt).meta.expense_ratio_regular = st.meta.expense_ratio_regular := by
  rw [applyAllotment_meta]

theorem applyAllotment_keeps_expense_ratio_direct (st : ExtState) (txt : Str) :
    (applyAllotment st txt).meta.expense_ratio_direct = st.meta.expense_ratio_direct := by
  rw [applyAllotment_meta]

theorem applyAllotment_keeps_benchmark (st : ExtState) (txt : Str) :
    (applyAllotment st txt).meta.benchmark = st.meta.benchmark := by
  rw [applyAllotment_meta]

theorem applyAllotment_keeps_additional_benchmark (st : ExtState) (txt : Str) :
    (applyAllotment st txt).meta.additional_benchmark = st.meta.additional_benchmark := by
  rw [applyAllotment_meta]

theorem applyAllotment_keeps_managers (st : ExtState) (txt : Str) :
    (applyAllotment st txt).meta.managers = st.meta.managers := by
  rw [applyAllotment_meta]

theorem applyAllotment_keeps_doc_date (st : ExtState) (txt : Str) :
    (applyAllotment st txt).meta.doc_date = st.meta.doc_date := by
  rw [applyAllotment_meta]

theorem applyBenchmark_keeps_name (st : ExtState) (txt : Str) :
    (applyBenchmark st txt).meta.name = st.meta.name := by
  rw [applyBenchmark_meta]

theorem applyBenchmark_keeps_category (st : ExtState) (txt : Str) :
    (applyBenchmark st txt).meta.category = st.meta.category := by
  rw [applyBenchmark_meta]

theorem applyBenchmark_keeps_aum_crore (st : ExtState) (txt : Str) :
    (applyBenchmark st txt).meta.aum_crore = st.meta.aum_crore := by
  rw [applyBenchmark_meta]

theorem applyBenchmark_keeps_monthly_avg_aum (st : ExtState) (txt : Str) :
    (applyBenchmark st txt).meta.monthly_avg_aum = st.meta.monthly_avg_aum := by
  rw [applyBenchmark_meta]

theorem applyBenchmark_keeps_expense_ratio_regular (st : ExtState) (txt : Str) :
    (applyBenchmark st txt).meta.expense_ratio_regular = st.meta.expense_ratio_regular := by
  rw [applyBenchmark_meta]

theorem applyBenchmark_keeps_expense_ratio_direct (st : ExtState) (txt : Str) :
    (applyBenchmark st txt).meta.expense_ratio_direct = st.meta.expense_ratio_direct := by
  rw [applyBenchmark_meta]

theorem applyBenchmark_keeps_additional_benchmark (st : ExtState) (txt : Str) :
    (applyBenchmark st txt).meta.additional_benchmark = st.meta.additional_benchmark := by
  rw [applyBenchmark_meta]

theorem applyBenchmark_keeps_date_of_allotment (st : ExtState) (txt : Str) :
    (applyBenchmark st txt).meta.date_of_allotment = st.meta.date_of_allotment := by
  rw [applyBenchmark_meta]

theorem applyBenchmark_keeps_managers (st : ExtState) (txt : Str) :
    (applyBenchmark st txt).meta.managers = st.meta.managers := by
  rw [applyBenchmark_meta]

theorem applyBenchmark_keeps_doc_date (st : ExtState) (txt : Str) :
    (applyBenchmark st txt).meta.doc_date = st.meta.doc_date := by
  rw [applyBenchmark_meta]

theorem applyAddBenchmark_keeps_name (st : ExtState) (txt : Str) :
    (applyAddBenchmark st txt).meta.name = st.meta.name := by
  rw [applyAddBenchmark_meta]

theorem applyAddBenchmark_keeps_category (st : ExtState) (txt : Str) :
    (applyAddBenchmark st txt).meta.category = st.meta.category := by
  rw [applyAddBenchmark_meta]

theorem applyAddBenchmark_keeps_aum_crore (st : ExtState) (txt : Str) :
    (applyAddBenchmark st txt).meta.aum_crore = st.meta.aum_crore := by
  rw [applyAddBenchmark_meta]

theorem applyAddBenchmark_keeps_monthly_avg_aum (st : ExtState) (txt : Str) :
    (applyAddBenchmark st txt).meta.monthly_avg_aum = st.meta.monthly_avg_aum := by
  rw [applyAddBenchmark_meta]

theorem applyAddBenchmark_keeps_expense_ratio_regular (st : ExtState) (txt : Str) :
    (applyAddBenchmark st txt).meta.expense_ratio_regular = st.meta.expense_ratio_regular := by
  rw [applyAddBenchmark_meta]

theorem applyAddBenchmark_keeps_expense_ratio_direct (st : ExtState) (txt : Str) :
    (applyAddBenchmark st txt).meta.expense_ratio_direct = st.meta.expense_ratio_direct := by
  rw [applyAddBenchmark_meta]

theorem applyAddBenchmark_keeps_benchmark (st : ExtState) (txt : Str) :
    (applyAddBenchmark st txt).meta.benchmark = st.meta.benchmark := by
  rw [applyAddBenchmark_meta]

theorem applyAddBenchmark_keeps_date_of_allotment (st : ExtState) (txt : Str) :
    (applyAddBenchmark st txt).meta.date_of_allotment = st.meta.date_of_allotment := by
  rw [applyAddBenchmark_meta]

theorem applyAddBenchmark_keeps_managers (st : ExtState) (txt : Str) :
    (applyAddBenchmark st txt).meta.managers = st.meta.managers := by
  rw [applyAddBenchmark_meta]

theorem applyAddBenchmark_keeps_doc_date (st : ExtState) (txt : Str) :
    (applyAddBenchmark st txt).meta.doc_date = st.meta.doc_date := by
  rw [applyAddBenchmark_meta]

theorem applyAum_keeps_name (st : ExtState) (txt : Str) :
    (applyAum st txt).meta.name = st.meta.name := by
  rw [applyAum_meta]

theorem applyAum_keeps_category (st : ExtState) (txt : Str) :
    (applyAum st txt).meta.category = st.meta.category := by
  rw [applyAum_meta]

theorem applyAum_keeps_monthly_avg_aum (st : ExtState) (txt : Str) :
    (applyAum st txt).meta.monthly_avg_aum = st.meta.monthly_avg_aum := by
  rw [applyAum_meta]

theorem applyAum_keeps_expense_ratio_regular (st : ExtState) (txt : Str) :
    (applyAum st txt).meta.expense_ratio_regular = st.meta.expense_ratio_regular := by
  rw [applyAum_meta]

theorem applyAum_keeps_expense_ratio_direct (st : ExtState) (txt : Str) :
    (applyAum st txt).meta.expense_ratio_direct = st.meta.expense_ratio_direct := by
  rw [applyAum_meta]

theorem applyAum_keeps_benchmark (st : ExtState) (txt : Str) :
    (applyAum st txt).meta.benchmark = st.meta.benchmark := by
  rw [applyAum_meta]

theorem applyAum_keeps_additional_benchmark (st : ExtState) (txt : Str) :
    (applyAum st txt).meta.additional_benchmark = st.meta.additional_benchmark := by
  rw [applyAum_meta]

theorem applyAum_keeps_date_of_allotment (st : ExtState) (txt : Str) :
    (applyAum st txt).meta.date_of_allotment = st.meta.date_of_allotment := by
  rw [applyAum_meta]

theorem applyAum_keeps_managers (st : ExtState) (txt : Str) :
    (applyAum st txt).meta.managers = st.meta.managers := by
  rw [applyAum_meta]

theorem applyAum_keeps_doc_date (st : ExtState) (txt : Str) :
    (applyAum st txt).meta.doc_date = st.meta.doc_date := by
  rw [applyAum_meta]

theorem applyMonthly_keeps_name (st : ExtState) (txt : Str) :
    (applyMonthly st txt).meta.name = st.meta.name := by
  rw [applyMonthly_meta]

theorem applyMonthly_keeps_category (st : ExtState) (txt : Str) :
    (applyMonthly st txt).meta.category = st.meta.category := by
  rw [applyMonthly_meta]

theorem applyMonthly_keeps_aum_crore (st : ExtState) (txt : Str) :
    (applyMonthly st txt).meta.aum_crore = st.meta.aum_crore := by
  rw [applyMonthly_meta]

theorem applyMonthly_keeps_expense_ratio_regular (st : ExtState) (txt : Str) :
    (applyMonthly st txt).meta.expense_ratio_regular = st.meta.expense_ratio_regular := by
  rw [applyMonthly_meta]

theorem applyMonthly_keeps_expense_ratio_direct (st : ExtState) (txt : Str) :
    (applyMonthly st txt).meta.expense_ratio_direct = st.meta.expense_ratio_direct := by
  rw [applyMonthly_meta]

theorem applyMonthly_keeps_benchmark (st : ExtState) (txt : Str) :
    (applyMonthly st txt).meta.benchmark = st.meta.benchmark := by
  rw [applyMonthly_meta]

theorem applyMonthly_keeps_additional_benchmark (st : ExtState) (txt : Str) :
    (applyMonthly st txt).meta.additional_benchmark = st.meta.additional_benchmark := by
  rw [applyMonthly_meta]

theorem applyMonthly_keeps_date_of_allotment (st : ExtState) (txt : Str) :
    (applyMonthly st txt).meta.date_of_allotment = st.meta.date_of_allotment := by
  rw [applyMonthly_meta]

theorem applyMonthly_keeps_managers (st : ExtState) (txt : Str) :
    (applyMonthly st txt).meta.managers = st.meta.managers := by
  rw [applyMonthly_meta]

theorem applyMonthly_keeps_doc_date (st : ExtState) (txt : Str) :
    (applyMonthly st txt).meta.doc_date = st.meta.doc_date := by
  rw [applyMonthly_meta]

theorem applyRegular_keeps_name (st : ExtState) (txt : Str) :
    (applyRegular st txt).meta.name = st.meta.name := by
  rw [applyRegular_meta]

theorem applyRegular_keeps_category (st : ExtState) (txt : Str) :
    (applyRegular st txt).meta.category = st.meta.category := by
  rw [applyRegular_meta]

theorem applyRegular_keeps_aum_crore (st : ExtState) (txt : Str) :
    (applyRegular st txt).meta.aum_crore = st.meta.aum_crore := by
  rw [applyRegular_meta]

theorem applyRegular_keeps_monthly_avg_aum (st : ExtState) (txt : Str) :
    (applyRegular st txt).meta.monthly_avg_aum = st.meta.monthly_avg_aum := by
  rw [applyRegular_meta]

theorem applyRegular_keeps_expense_ratio_direct (st : ExtState) (txt : Str) :
    (applyRegular st txt).meta.expense_ratio_direct = st.meta.expense_ratio_direct := by
  rw [applyRegular_meta]

theorem applyRegular_keeps_benchmark (st : ExtState) (txt : Str) :
    (applyRegular st txt).meta.benchmark = st.meta.benchmark := by
  rw [applyRegular_meta]

theorem applyRegular_keeps_additional_benchmark (st : ExtState) (txt : Str) :
    (applyRegular st txt).meta.additional_benchmark = st.meta.additional_benchmark := by
  rw [applyRegular_meta]

theorem applyRegular_keeps_date_of_allotment (st : ExtState) (txt : Str) :
    (applyRegular st txt).meta.date_of_allotment = st.meta.date_of_allotment := by
  rw [applyRegular_meta]

theorem applyRegular_keeps_managers (st : ExtState) (txt : Str) :
    (applyRegular st txt).meta.managers = st.meta.managers := by
  rw [applyRegular_meta]

theorem applyRegular_keeps_doc_date (st : ExtState) (txt : Str) :
    (applyRegular st txt).meta.doc_date = st.meta.doc_date := by
  rw [applyRegular_meta]

theorem applyDirect_keeps_name (st : ExtState) (txt : Str) :
    (applyDirect st txt).meta.name = st.meta.name := by
  rw [applyDirect_meta]

theorem applyDirect_keeps_category (st : ExtState) (txt : Str) :
    (applyDirect st txt).meta.category = st.meta.category := by
  rw [applyDirect_meta]

theorem applyDirect_keeps_aum_crore (st : ExtState) (txt : Str) :
    (applyDirect st txt).meta.aum_crore = st.meta.aum_crore := by
  rw [applyDirect_meta]

theorem applyDirect_keeps_monthly_avg_aum (st : ExtState) (txt : Str) :
    (applyDirect st txt).meta.monthly_avg_aum = st.meta.monthly_avg_aum := by
  rw [applyDirect_meta]

theorem applyDirect_keeps_expense_ratio_regular (st : ExtState) (txt : Str) :
    (applyDirect st txt).meta.expense_ratio_regular = st.meta.expense_ratio_regular := by
  rw [applyDirect_meta]

theorem applyDirect_keeps_benchmark (st : ExtState) (txt : Str) :
    (applyDirect st txt).meta.benchmark = st.meta.benchmark := by
  rw [applyDirect_meta]

theorem applyDirect_keeps_additional_benchmark (st : ExtState) (txt : Str) :
    (applyDirect st txt).meta.additional_benchmark = st.meta.additional_benchmark := by
  rw [applyDirect_meta]

theorem applyDirect_keeps_date_of_allotment (st : ExtState) (txt : Str) :
    (applyDirect st txt).meta.date_of_allotment = st.meta.date_of_allotment := by
  rw [applyDirect_meta]

theorem applyDirect_keeps_managers (st : ExtState) (txt : Str) :
    (applyDirect st txt).meta.managers = st.meta.managers := by
  rw [applyDirect_meta]

theorem applyDirect_keeps_doc_date (st : ExtState) (txt : Str) :
    (applyDirect st txt).meta.doc_date = st.meta.doc_date := by
  rw [applyDirect_meta]

theorem sp_applyMgr (st : ExtState) (txt : Str) :
    ScalarPreserved st (applyMgr st txt) := by
  refine ⟨?_, ?_, ?_, ?_, ?_, ?_, ?_, ?_, ?_, rfl⟩ <;> intro v hv hs <;> exact hs

theorem sp_applyMgr2 (st : ExtState) (txt : Str) :
    ScalarPreserved st (applyMgr2 st txt) := by
  refine ⟨?_, ?_, ?_, ?_, ?_, ?_, ?_, ?_, ?_, rfl⟩ <;> intro v hv hs <;> exact hs

theorem sp_chain (st : ExtState) (txt : Str) :
    ScalarPreserved st
      (applyDirect (applyRegular (applyMonthly (applyAum
        (applyAddBenchmark (applyBenchmark (applyAllotment st txt) txt) txt)
          txt) txt) txt) txt) :=
  ((((((sp_applyAllotment st txt).trans' (sp_applyBenchmark _ txt)).trans'
      (sp_applyAddBenchmark _ txt)).trans' (sp_applyAum _ txt)).trans'
      (sp_applyMonthly _ txt)).trans' (sp_applyRegular _ txt)).trans'
      (sp_applyDirect _ txt)

theorem sp_extractStep (st : ExtState) (c : ContentItem) :
    ScalarPreserved st (extractStep st c) := by
  simp only [extractStep]
  split
  · exact ScalarPreserved.rfl' st
  · split
    · exact ScalarPreserved.rfl' st
    · split
      · rename_i hcond
        simp only [Bool.and_eq_true] at hcond
        exact sp_applyName st _ hcond.1
      · split
        · rename_i hcat
          unfold catFires at hcat
          simp only [Bool.and_eq_true] at hcat
          exact sp_applyCategory st _ hcat.1.2
        · split
          · exact (sp_chain st _).trans' (sp_applyMgr _ _)
          · split
            · exact (sp_chain st _).trans' (sp_applyMgr2 _ _)
            · exact sp_chain st _

theorem sp_foldl_items (l : List ContentItem) :
    ∀ st : ExtState, ScalarPreserved st (l.foldl extractStep st) := by
  induction l with
  | nil => intro st; exact ScalarPreserved.rfl' st
  | cons c l ih =>
    intro st
    simp only [List.foldl_cons]
    exact (sp_extractStep st c).trans' (ih _)

theorem sp_foldl_pages (pages : List PageOut) :
    ∀ st : ExtState, ScalarPreserved st (pages.foldl pageStep st) := by
  induction pages with
  | nil => intro st; exact ScalarPreserved.rfl' st
  | cons p ps ih =>
    intro st
    simp only [List.foldl_cons]
    exact (sp_foldl_items p.content st).trans' (ih _)

/-- C4 (counterexample): a scalar field is NOT always assigned at most
once — the guards test Python truthiness, so a field set to `0.0` (here
`aum_crore` from "Net AUM : 0 crore") is treated as unset and a later
item's match changes it (here to `5`). -/
theorem C4_counterexample :
    (extract_fund_metadata_from_content
        [⟨1, [mkPara "Net AUM : 0 crore"]⟩] []).aum_crore = some 0
    ∧ (extract_fund_metadata_from_content
        [⟨1, [mkPara "Net AUM : 0 crore", mkPara "Net AUM : 5 crore"]⟩]
        []).aum_crore = some 5 :=
  ⟨by decide, by decide⟩

/-- C4 (amended): first-match-wins holds for truthy values: from any
extractor state, one step or any further stream of items preserves every
scalar field that holds a nonempty string or nonzero number, and never
touches `doc_date`; a field holding `0.0` or an empty string is treated
as unset by the guards and may be reassigned. -/
theorem C4_first_match_wins :
    (∀ (st : ExtState) (c : ContentItem), ScalarPreserved st (extractStep st c))
    ∧ (∀ (st : ExtState) (pages : List PageOut),
        ScalarPreserved st (pages.foldl pageStep st)) :=
  ⟨sp_extractStep, fun st pages => sp_foldl_pages pages st⟩

theorem C4_witness :
    (extractStep ⟨{ aum_crore := some 5 }, [], []⟩
        (mkPara "Net AUM : 7 crore")).meta.aum_crore = some 5 :=
  (C4_first_match_wins.1 ⟨{ aum_crore := some 5 }, [], []⟩
    (mkPara "Net AUM : 7 crore")).2.2.1 5 (by norm_num) rfl

/-- C10: when the fund-name rule fires on an item (name still unset, text
contains `FUND` case-insensitively, length under 120, not starting with
`JUNE`), no other metadata rule is attempted on that same item: the step
is exactly `applyName`, so the manager buffer, the seen-set and the
managers list are unchanged by that item even if its text also contains
`Fund Manager`. -/
theorem C10_name_short_circuit :
    ∀ (st : ExtState) (c : ContentItem) (t : Str),
      textOfItem c = some t →
      is_noise (fix_glued_domain_terms (clean_text t)) = false →
      optStrFalsy st.meta.name = true →
      nameCond (fix_glued_domain_terms (clean_text t)) = true →
      extractStep st c = applyName st (fix_glued_domain_terms (clean_text t))
      ∧ (extractStep st c).buffer = st.buffer
      ∧ (extractStep st c).seen = st.seen
      ∧ (extractStep st c).meta.managers = st.meta.managers := by
  intro st c t ht hn hf hc
  have hstep : extractStep st c
      = applyName st (fix_glued_domain_terms (clean_text t)) := by
    simp only [extractStep, ht, hn, hf, hc, Bool.and_self, Bool.true_and,
      Bool.false_eq_true, if_false, if_true]
  exact ⟨hstep, by rw [hstep]; rfl, by rw [hstep]; rfl, by rw [hstep]; rfl⟩

theorem C10_witness :
    (extractStep ⟨{}, [], []⟩ (mkPara "Fund Manager: Mr. John Smith (Equity)")).buffer
        = []
    ∧ (extractStep ⟨{}, [], []⟩
        (mkPara "Fund Manager: Mr. John Smith (Equity)")).meta.managers = [] := by
  have h := C10_name_short_circuit ⟨{}, [], []⟩
    (mkPara "Fund Manager: Mr. John Smith (Equity)")
    "Fund Manager: Mr. John Smith (Equity)".toList
    (by decide) (by decide) (by decide) (by decide)
  exact ⟨h.2.1, h.2.2.2⟩

/-- The managers/seen invariant of the extractor: no duplicates, and the
managers list holds exactly the names recorded as seen. -/
def MgrInv (st : ExtState) : Prop :=
  st.meta.managers.Nodup ∧ ∀ n, n ∈ st.meta.managers ↔ n ∈ st.seen

theorem addNames_inv (ms : List Str) :
    ∀ (seen mgrs : List Str), mgrs.Nodup → (∀ n, n ∈ mgrs ↔ n ∈ seen) →
      (addNames seen mgrs ms).2.Nodup
      ∧ (∀ n, n ∈ (addNames seen mgrs ms).2 ↔ n ∈ (addNames seen mgrs ms).1)
      ∧ (∃ tl, (addNames seen mgrs ms).2 = mgrs ++ tl) := by
  induction ms with
  | nil =>
    intro seen mgrs h1 h2
    exact ⟨h1, h2, [], by simp [addNames]⟩
  | cons m ms ih =>
    intro seen mgrs h1 h2
    simp only [addNames]
    split
    · rename_i hcond
      have hnm : cleanupName m ∉ mgrs := fun hin => hcond.2 ((h2 _).mp hin)
      have h1' : (mgrs ++ [cleanupName m]).Nodup := by
        simp [List.nodup_append, h1, hnm]
      have h2' : ∀ n, n ∈ mgrs ++ [cleanupName m] ↔ n ∈ cleanupName m :: seen := by
        intro n
        constructor
        · intro hmem
          rcases List.mem_append.mp hmem with hmem | hmem
          · exact List.mem_cons_of_mem _ ((h2 n).mp hmem)
          · rw [List.mem_singleton.mp hmem]
            exact List.mem_cons_self _ _
        · intro hmem
          rcases List.mem_cons.mp hmem with rfl | hmem
          · exact List.mem_append.mpr (Or.inr (List.mem_singleton.mpr rfl))
          · exact List.mem_append.mpr (Or.inl ((h2 n).mpr hmem))
      rcases ih (cleanupName m :: seen) (mgrs ++ [cleanupName m]) h1' h2' with
        ⟨j1, j2, tl, j3⟩
      exact ⟨j1, j2, [cleanupName m] ++ tl, by rw [j3, List.append_assoc]⟩
    · exact ih seen mgrs h1 h2

theorem chain_mgr (st : ExtState) (txt : Str) :
    (applyDirect (applyRegular (applyMonthly (applyAum
        (applyAddBenchmark (applyBenchmark (applyAllotment st txt) txt) txt)
          txt) txt) txt) txt).meta.managers = st.meta.managers
    ∧ (applyDirect (applyRegular (applyMonthly (applyAum
        (applyAddBenchmark (applyBenchmark (applyAllotment st txt) txt) txt)
          txt) txt) txt) txt).seen = st.seen
    ∧ (applyDirect (applyRegular (applyMonthly (applyAum
        (applyAddBenchmark (applyBenchmark (applyAllotment st txt) txt) txt)
          txt) txt) txt) txt).buffer = st.buffer := by
  refine ⟨?_, ?_, ?_⟩
  · rw [applyDirect_keeps_managers, applyRegular_keeps_managers,
      applyMonthly_keeps_managers, applyAum_keeps_managers,
      applyAddBenchmark_keeps_managers, applyBenchmark_keeps_managers,
      applyAllotment_keeps_managers]
  · rw [(applyDirect_st _ _).2, (applyRegular_st _ _).2, (applyMonthly_st _ _).2,
      (applyAum_st _ _).2, (applyAddBenchmark_st _ _).2, (applyBenchmark_st _ _).2,
      (applyAllotment_st _ _).2]
  · rw [(applyDirect_st _ _).1, (applyRegular_st _ _).1, (applyMonthly_st _ _).1,
      (applyAum_st _ _).1, (applyAddBenchmark_st _ _).1, (applyBenchmark_st _ _).1,
      (applyAllotment_st _ _).1]

theorem addNames_append (ms : List Str) :
    ∀ (seen mgrs : List Str), ∃ tl, (addNames seen mgrs ms).2 = mgrs ++ tl := by
  induction ms with
  | nil => intro seen mgrs; exact ⟨[], by simp [addNames]⟩
  | cons m ms ih =>
    intro seen mgrs
    simp only [addNames]
    split
    · rcases ih (cleanupName m :: seen) (mgrs ++ [cleanupName m]) with ⟨tl, h⟩
      exact ⟨[cleanupName m] ++ tl, by rw [h, List.append_assoc]⟩
    · exact ih seen mgrs

theorem applyMgr_append (st : ExtState) (txt : Str) :
    ∃ tl, (applyMgr st txt).meta.managers = st.meta.managers ++ tl := by
  rcases addNames_append (findAll mgrTryAt (st.buffer ++ ' ' :: txt))
    st.seen st.meta.managers with ⟨tl, h⟩
  exact ⟨tl, h⟩

theorem applyMgr2_append (st : ExtState) (txt : Str) :
    ∃ tl, (applyMgr2 st txt).meta.managers = st.meta.managers ++ tl := by
  rcases addNames_append (findAll mrTryAt (st.buffer ++ ' ' :: txt))
    st.seen st.meta.managers with ⟨tl, h⟩
  exact ⟨tl, h⟩

theorem mgrInv_applyMgr (st : ExtState) (txt : Str) (h : MgrInv st) :
    MgrInv (applyMgr st txt) := by
  rcases addNames_inv (findAll mgrTryAt (st.buffer ++ ' ' :: txt))
    st.seen st.meta.managers h.1 h.2 with ⟨j1, j2, _⟩
  exact ⟨j1, j2⟩

theorem mgrInv_applyMgr2 (st : ExtState) (txt : Str) (h : MgrInv st) :
    MgrInv (applyMgr2 st txt) := by
  rcases addNames_inv (findAll mrTryAt (st.buffer ++ ' ' :: txt))
    st.seen st.meta.managers h.1 h.2 with ⟨j1, j2, _⟩
  exact ⟨j1, j2⟩

theorem mgrInv_chain (st : ExtState) (txt : Str) (h : MgrInv st) :
    MgrInv (applyDirect (applyRegular (applyMonthly (applyAum
      (applyAddBenchmark (applyBenchmark (applyAllotment st txt) txt) txt)
        txt) txt) txt) txt) := by
  rcases chain_mgr st txt with ⟨h1, h2, _⟩
  exact ⟨h1 ▸ h.1, fun n => by rw [h1, h2]; exact h.2 n⟩

theorem mgrInv_extractStep (st : ExtState) (c : ContentItem) (h : MgrInv st) :
    MgrInv (extractStep st c) := by
  simp only [extractStep]
  split
  · exact h
  · split
    · exact h
    · split
      · exact h
      · split
        · exact h
        · split
          · exact mgrInv_applyMgr _ _ (mgrInv_chain st _ h)
          · split
            · exact mgrInv_applyMgr2 _ _ (mgrInv_chain st _ h)
            · exact mgrInv_chain st _ h

theorem mgrInv_foldl (l : List ContentItem) :
    ∀ st : ExtState, MgrInv st → MgrInv (l.foldl extractStep st) := by
  induction l with
  | nil => intro st h; exact h
  | cons c l ih =>
    intro st h
    simp only [List.foldl_cons]
    exact ih _ (mgrInv_extractStep st c h)

theorem mgrInv_pages (pages : List PageOut) :
    ∀ st : ExtState, MgrInv st → MgrInv (pages.foldl pageStep st) := by
  induction pages with
  | nil => intro st h; exact h
  | cons p ps ih =>
    intro st h
    simp only [List.foldl_cons]
    exact ih _ (mgrInv_foldl p.content st h)

theorem managers_step_append (st : ExtState) (c : ContentItem) :
    ∃ tl, (extractStep st c).meta.managers = st.meta.managers ++ tl := by
  simp only [extractStep]
  split
  · exact ⟨[], by simp⟩
  · rename_i t heq
    split
    · exact ⟨[], by simp⟩
    · split
      · exact ⟨[], by simp [applyName]⟩
      · split
        · exact ⟨[], by simp [applyCategory]⟩
        · have hb := (chain_mgr st (fix_glued_domain_terms (clean_text t))).1
          split
          · obtain ⟨tl, h⟩ := applyMgr_append _ (fix_glued_domain_terms (clean_text t))
            exact ⟨tl, by rw [h, hb]⟩
          · split
            · obtain ⟨tl, h⟩ :=
                applyMgr2_append _ (fix_glued_domain_terms (clean_text t))
              exact ⟨tl, by rw [h, hb]⟩
            · exact ⟨[], by rw [hb, List.append_nil]⟩

/-- C7 (counterexample): on a stream consisting of exactly the paragraph
`"Fund Manager: Mr. John Smith (Equity)"`, the managers list is empty, not
`["John Smith"]`: the fund-name rule fires first (the text contains
`FUND` case-insensitively) and short-circuits the item. -/
theorem C7_counterexample :
    (extract_fund_metadata_from_content
        [⟨1, [mkPara "Fund Manager: Mr. John Smith (Equity)"]⟩] []).managers
      = [] := by decide

/-- C7 (amended): the managers list never contains duplicates (exact
string equality after normalization) and grows only by appending, so
first-insertion order is preserved; and provided the fund name was
already set by an earlier item, the paragraph
`"Fund Manager: Mr. John Smith (Equity)"` yields exactly
`managers = ["John Smith"]`, and a second distinct paragraph naming the
same manager does not add a second entry. -/
theorem C7_manager_accumulation :
    (∀ (pages : List PageOut) (cover : Str),
        (extract_fund_metadata_from_content pages cover).managers.Nodup)
    ∧ (∀ (st : ExtState) (c : ContentItem),
        ∃ tl, (extractStep st c).meta.managers = st.meta.managers ++ tl)
    ∧ (extract_fund_metadata_from_content
        [⟨1, [mkPara "Alpha Fund", mkPara "Fund Manager: Mr. John Smith (Equity)"]⟩]
        []).managers = ["John Smith".toList]
    ∧ (extract_fund_metadata_from_content
        [⟨1, [mkPara "Alpha Fund", mkPara "Fund Manager: Mr. John Smith (Equity)",
              mkPara "Fund Manager - Mr. John Smith (Debt)"]⟩] []).managers
      = ["John Smith".toList] := by
  refine ⟨?_, managers_step_append, by decide, by decide⟩
  intro pages cover
  exact (mgrInv_pages pages _ ⟨List.nodup_nil, by simp⟩).1

def aumTextC2 : Str := "Net AUM : ₹ 12,345.67 crore".toList

def aumItemC2 : ContentItem := mkPara "Net AUM : ₹ 12,345.67 crore"

/-- "This item's processed text matches the Net-AUM regex." -/
def itemAumMatch (c : ContentItem) : Bool :=
  match textOfItem c with
  | none => false
  | some t => (aumSearch (fix_glued_domain_terms (clean_text t))).isSome

theorem applyAum_nosearch (st : ExtState) (txt : Str)
    (h : aumSearch txt = none) : applyAum st txt = st := by
  unfold applyAum
  split
  · rw [h]
  · rfl

theorem chain_aum_nosearch (st : ExtState) (txt : Str)
    (h : aumSearch txt = none) :
    (applyDirect (applyRegular (applyMonthly (applyAum
      (applyAddBenchmark (applyBenchmark (applyAllotment st txt) txt) txt)
        txt) txt) txt) txt).meta.aum_crore = st.meta.aum_crore := by
  rw [applyDirect_keeps_aum_crore, applyRegular_keeps_aum_crore,
    applyMonthly_keeps_aum_crore, applyAum_nosearch _ _ h,
    applyAddBenchmark_keeps_aum_crore, applyBenchmark_keeps_aum_crore,
    applyAllotment_keeps_aum_crore]

theorem step_aum_eq (st : ExtState) (c : ContentItem)
    (h : itemAumMatch c = false) :
    (extractStep st c).meta.aum_crore = st.meta.aum_crore := by
  simp only [extractStep]
  split
  · rfl
  · rename_i t heq
    have hs : aumSearch (fix_glued_domain_terms (clean_text t)) = none := by
      unfold itemAumMatch at h
      rw [heq] at h
      simpa using h
    split
    · rfl
    · split
      · rfl
      · split
        · rfl
        · split
          · exact chain_aum_nosearch st _ hs
          · split
            · exact chain_aum_nosearch st _ hs
            · exact chain_aum_nosearch st _ hs

theorem foldl_aum_none (l : List ContentItem) :
    ∀ st : ExtState, (∀ it ∈ l, itemAumMatch it = false) →
      (l.foldl extractStep st).meta.aum_crore = st.meta.aum_crore := by
  induction l with
  | nil => intro st _; rfl
  | cons c l ih =>
    intro st h
    simp only [List.foldl_cons]
    rw [ih _ fun it hit => h it (List.mem_cons_of_mem _ hit),
      step_aum_eq st c (h c (List.mem_cons_self _ _))]

theorem applyAum_sets (st : ExtState) (txt : Str)
    (hnone : st.meta.aum_crore = none) (cap : Str)
    (hs : aumSearch txt = some cap) (v : ℚ)
    (hf : pyFloat (cap.filter (· != ',')) = some v) :
    (applyAum st txt).meta.aum_crore = some v := by
  simp [applyAum, hnone, optQFalsy, hs, hf]

theorem pyFloat_aumC2 :
    pyFloat ("12,345.67".toList.filter (· != ','))
      = some ((12345 : ℚ) + 67 / 100) := by
  have h0 : "12,345.67".toList.filter (· != ',') = "12345.67".toList := by decide
  have h1 : "12345.67".toList.takeWhile isDigitC = "12345".toList := by decide
  have h2 : "12345.67".toList.dropWhile isDigitC = '.' :: "67".toList := by decide
  have h3 : "67".toList.takeWhile isDigitC = "67".toList := by decide
  have h4 : "67".toList.dropWhile isDigitC = ([] : Str) := by decide
  have h5 : natOfDigits "12345".toList = 12345 := by decide
  have h6 : natOfDigits "67".toList = 67 := by decide
  have h7 : ("67".toList).length = 2 := by decide
  have h8 : "12345".toList.isEmpty = false := by decide
  rw [h0]
  simp only [pyFloat, h1, h2, h3, h4, h5, h6, h7, h8]
  norm_num

theorem step_sets_aum (st : ExtState) (hnone : st.meta.aum_crore = none) :
    (extractStep st aumItemC2).meta.aum_crore
      = some ((12345 : ℚ) + 67 / 100) := by
  have ht : textOfItem aumItemC2 = some aumTextC2 := by decide
  have hfix : fix_glued_domain_terms (clean_text aumTextC2) = aumTextC2 := by decide
  have hnoise : is_noise aumTextC2 = false := by decide
  have hname : nameCond aumTextC2 = false := by decide
  have hpar : (listBegins "(".toList (pyStrip aumTextC2)
      && listEnds ")".toList (pyStrip aumTextC2)) = false := by decide
  have hmgr : hasSub "fund manager".toList (pyLower aumTextC2) = false := by decide
  have hmr : listBegins "Mr.".toList aumTextC2 = false := by decide
  have hsearch : aumSearch aumTextC2 = some "12,345.67".toList := by decide
  simp only [extractStep, ht, hfix, hnoise, Bool.false_eq_true, if_false,
    hname, Bool.and_false, catFires, hpar, hmgr, hmr,
    Bool.false_and]
  rw [applyDirect_keeps_aum_crore, applyRegular_keeps_aum_crore,
    applyMonthly_keeps_aum_crore]
  exact applyAum_sets _ _
    (by rw [applyAddBenchmark_keeps_aum_crore, applyBenchmark_keeps_aum_crore,
          applyAllotment_keeps_aum_crore]
        exact hnone)
    _ hsearch _ pyFloat_aumC2

/-- C2 (counterexample): for the document consisting of the paragraph
`"Net AUM : Rs 12,345.67 crore"` (which matches the claim's shape, with no
earlier Net-AUM match), `aum_crore` stays unset: the regex's currency
class `[₹\` ]*` does not admit `"Rs"`, so the labeled-value pattern never
matches. -/
theorem C2_counterexample :
    (extract_fund_metadata_from_content
        [⟨1, [mkPara "Net AUM : Rs 12,345.67 crore"]⟩] []).aum_crore
      = none := by decide

/-- C2 (amended): for a document whose ordered content contains a
paragraph `"Net AUM : ₹ 12,345.67 crore"` (the currency marker drawn from
the regex's `[₹\` ]*` class instead of `"Rs"`), with no earlier item
matching the Net-AUM regex, extraction sets `aum_crore` to the number
12345.67 parsed from the captured digits and commas. -/
theorem C2_aum_extraction :
    ∀ (pre post : List ContentItem) (cover : Str),
      (∀ it ∈ pre, itemAumMatch it = false) →
      (extract_fund_metadata_from_content
          [⟨1, pre ++ aumItemC2 :: post⟩] cover).aum_crore
        = some ((12345 : ℚ) + 67 / 100) := by
  intro pre post cover hpre
  unfold extract_fund_metadata_from_content
  simp only [List.foldl_cons, List.foldl_nil]
  unfold pageStep
  rw [List.foldl_append]
  simp only [List.foldl_cons]
  have hpre' : (pre.foldl extractStep
      { meta := { doc_date := docDateSearch cover } }).meta.aum_crore = none :=
    foldl_aum_none pre _ hpre
  have hset := step_sets_aum _ hpre'
  exact (sp_foldl_items post _).2.2.1 _ (by norm_num) hset

theorem C2_witness :
    (extract_fund_metadata_from_content [⟨1, [aumItemC2]⟩] []).aum_crore
      = some ((12345 : ℚ) + 67 / 100) :=
  C2_aum_extraction [] [] [] (fun it h => absurd h (List.not_mem_nil it))

theorem lower_upper_disjoint (c : Char) :
    ¬(isLowerC c = true ∧ isUpperC c = true) := by
  rintro ⟨h1, h2⟩
  simp only [isLowerC, isUpperC, Char.isLower, Char.isUpper, Bool.and_eq_true,
    decide_eq_true_eq] at h1 h2
  exact absurd (UInt32.le_trans h1.1 h2.2) (by decide)

theorem alpha_digit_disjoint (c : Char) :
    ¬(isAlphaC c = true ∧ isDigitC c = true) := by
  rintro ⟨h1, h2⟩
  simp only [isAlphaC, isDigitC, Char.isAlpha, Char.isDigit, Char.isUpper,
    Char.isLower, Bool.or_eq_true, Bool.and_eq_true, decide_eq_true_eq] at h1 h2
  rcases h1 with h1 | h1
  · exact absurd (UInt32.le_trans h1.1 h2.2) (by decide)
  · exact absurd (UInt32.le_trans h1.1 h2.2) (by decide)

theorem digit_alpha_disjoint (c : Char) :
    ¬(isDigitC c = true ∧ isAlphaC c = true) := by
  rintro ⟨h1, h2⟩
  exact alpha_digit_disjoint c ⟨h2, h1⟩

/-- All whitespace in the string is the plain space character. -/
def spaceOnly (l : Str) : Prop := ∀ c ∈ l, isPySpace c = true → c = ' '

/-- No two adjacent plain spaces. -/
def noTwoSpaces : Str → Bool
  | [] => true
  | [_] => true
  | a :: b :: r => !(a == ' ' && b == ' ') && noTwoSpaces (b :: r)

/-- No adjacent p-q character pair. -/
def noPairB (p q : Char → Bool) : Str → Bool
  | [] => true
  | [_] => true
  | a :: b :: r => !(p a && q b) && noPairB p q (b :: r)

theorem dropWhile_decomp (p : Char → Bool) :
    ∀ l : Str, ∃ u, l = u ++ l.dropWhile p := by
  intro l
  induction l with
  | nil => exact ⟨[], rfl⟩
  | cons c r ih =>
    by_cases h : p c = true
    · rcases ih with ⟨u, hu⟩
      refine ⟨c :: u, ?_⟩
      simp only [List.dropWhile, h]
      exact congrArg (c :: ·) hu
    · refine ⟨[], ?_⟩
      simp only [List.dropWhile, Bool.not_eq_true] at h ⊢
      rw [h]
      rfl

theorem dropWhile_head (p : Char → Bool) :
    ∀ l : Str, l.dropWhile p = [] ∨
      ∃ c r, l.dropWhile p = c :: r ∧ p c = false := by
  intro l
  induction l with
  | nil => exact Or.inl rfl
  | cons c r ih =>
    by_cases h : p c = true
    · simpa only [List.dropWhile, h] using ih
    · right
      refine ⟨c, r, ?_, by simpa using h⟩
      simp only [List.dropWhile, Bool.not_eq_true] at h ⊢
      rw [h]

theorem dropWhile_of_head_false (p : Char → Bool) (l : Str)
    (h : l = [] ∨ ∃ c r, l = c :: r ∧ p c = false) : l.dropWhile p = l := by
  rcases h with rfl | ⟨c, r, rfl, hc⟩
  · rfl
  · simp only [List.dropWhile, hc]

theorem pyStrip_reverse_eq (l : Str) :
    (pyStrip l).reverse = (l.dropWhile isPySpace).reverse.dropWhile isPySpace := by
  simp [pyStrip]

theorem pyStrip_last (l : Str) :
    pyStrip l = [] ∨
      ∃ c r, (pyStrip l).reverse = c :: r ∧ isPySpace c = false := by
  rcases dropWhile_head isPySpace (l.dropWhile isPySpace).reverse with h | ⟨c, r, h, hc⟩
  · left
    have := pyStrip_reverse_eq l
    rw [h] at this
    simpa using List.reverse_eq_nil_iff.mp (by rw [this])
  · right
    exact ⟨c, r, by rw [pyStrip_reverse_eq l, h], hc⟩

theorem pyStrip_decomp (l : Str) : ∃ u v, l = u ++ pyStrip l ++ v := by
  rcases dropWhile_decomp isPySpace l with ⟨u, hu⟩
  rcases dropWhile_decomp isPySpace (l.dropWhile isPySpace).reverse with ⟨w, hw⟩
  have key : l.dropWhile isPySpace = pyStrip l ++ w.reverse := by
    have h2 := congrArg List.reverse hw
    simp only [List.reverse_reverse, List.reverse_append] at h2
    rw [h2, pyStrip]
  refine ⟨u, w.reverse, ?_⟩
  calc l = u ++ l.dropWhile isPySpace := hu
    _ = u ++ (pyStrip l ++ w.reverse) := by rw [key]
    _ = u ++ pyStrip l ++ w.reverse := by rw [List.append_assoc]

theorem pyStrip_head (l : Str) :
    pyStrip l = [] ∨ ∃ c r, pyStrip l = c :: r ∧ isPySpace c = false := by
  cases hps : pyStrip l with
  | nil => exact Or.inl rfl
  | cons c r =>
    right
    refine ⟨c, r, rfl, ?_⟩
    rcases dropWhile_head isPySpace l with h | ⟨d, s, h, hd⟩
    · rcases dropWhile_decomp isPySpace (l.dropWhile isPySpace).reverse with ⟨w, hw⟩
      rw [h] at hw
      simp only [List.reverse_nil] at hw
      have : pyStrip l = [] := by
        rw [pyStrip]
        rw [h]
        simp only [List.reverse_nil, List.dropWhile_nil, List.reverse_nil]
      rw [this] at hps
      exact absurd hps (by simp)
    · rcases dropWhile_decomp isPySpace (l.dropWhile isPySpace).reverse with ⟨w, hw⟩
      have h2 := congrArg List.reverse hw
      simp only [List.reverse_reverse, List.reverse_append] at h2
      have hpre : l.dropWhile isPySpace = pyStrip l ++ w.reverse := by
        rw [h2, pyStrip]
      rw [h, hps] at hpre
      have : d = c := by
        have := congrArg (fun x => x.head?) hpre
        simpa using this
      rw [← this]
      exact hd

theorem pyStrip_idem (l : Str) : pyStrip (pyStrip l) = pyStrip l := by
  have h1 : (pyStrip l).dropWhile isPySpace = pyStrip l :=
    dropWhile_of_head_false _ _ (pyStrip_head l)
  have h2 : (pyStrip l).reverse.dropWhile isPySpace = (pyStrip l).reverse := by
    apply dropWhile_of_head_false
    rcases pyStrip_last l with h | ⟨c, r, h, hc⟩
    · left
      rw [h]
      rfl
    · right
      exact ⟨c, r, h, hc⟩
  rw [pyStrip, h1, h2, List.reverse_reverse]

theorem mem_collapseAux :
    ∀ (l : Str) (b : Bool) (c : Char), c ∈ collapseAux b l →
      c = ' ' ∨ (c ∈ l ∧ isPySpace c = false) := by
  intro l
  induction l with
  | nil => intro b c hc; simp [collapseAux] at hc
  | cons d rest ih =>
    intro b c hc
    simp only [collapseAux] at hc
    by_cases hd : isPySpace d = true
    · rw [if_pos hd] at hc
      cases b with
      | true =>
        rcases ih true c hc with h | ⟨h1, h2⟩
        · exact Or.inl h
        · exact Or.inr ⟨List.mem_cons_of_mem _ h1, h2⟩
      | false =>
        replace hc : c ∈ ' ' :: collapseAux true rest := hc
        simp only [List.mem_cons] at hc
        rcases hc with rfl | hc
        · exact Or.inl rfl
        · rcases ih true c hc with h | ⟨h1, h2⟩
          · exact Or.inl h
          · exact Or.inr ⟨List.mem_cons_of_mem _ h1, h2⟩
    · rw [if_neg hd] at hc
      simp only [List.mem_cons] at hc
      rcases hc with rfl | hc
      · exact Or.inr ⟨List.mem_cons_self _ _, by simpa using hd⟩
      · rcases ih false c hc with h | ⟨h1, h2⟩
        · exact Or.inl h
        · exact Or.inr ⟨List.mem_cons_of_mem _ h1, h2⟩

theorem spaceOnly_collapseWs (l : Str) : spaceOnly (collapseWs l) := by
  intro c hc hsp
  rcases mem_collapseAux l false c hc with h | ⟨_, h2⟩
  · exact h
  · rw [hsp] at h2
    exact absurd h2 (by simp)

theorem mem_subPair (p q : Char → Bool) :
    ∀ (l : Str) (c : Char), c ∈ subPair p q l → c = ' ' ∨ c ∈ l
  | [], c => by intro hc; simp [subPair] at hc
  | [a], c => by
    intro hc
    simp only [subPair, List.mem_singleton] at hc
    subst hc
    exact Or.inr (List.mem_cons_self _ _)
  | a :: b :: r, c => by
    intro hc
    simp only [subPair] at hc
    split at hc
    · simp only [List.mem_cons] at hc
      rcases hc with rfl | rfl | rfl | hc
      · exact Or.inr (List.mem_cons_self _ _)
      · exact Or.inl rfl
      · exact Or.inr (List.mem_cons_of_mem _ (List.mem_cons_self _ _))
      · rcases mem_subPair p q r c hc with h | h
        · exact Or.inl h
        · exact Or.inr (List.mem_cons_of_mem _ (List.mem_cons_of_mem _ h))
    · simp only [List.mem_cons] at hc
      rcases hc with rfl | hc
      · exact Or.inr (List.mem_cons_self _ _)
      · rcases mem_subPair p q (b :: r) c hc with h | h
        · exact Or.inl h
        · exact Or.inr (List.mem_cons_of_mem _ h)

theorem spaceOnly_subPair (p q : Char → Bool) (l : Str) (h : spaceOnly l) :
    spaceOnly (subPair p q l) := by
  intro c hc hsp
  rcases mem_subPair p q l c hc with h1 | h1
  · exact h1
  · exact h c h1 hsp

theorem spaceOnly_append_parts {u m v : Str} (h : spaceOnly (u ++ m ++ v)) :
    spaceOnly m := by
  intro c hc hsp
  exact h c (by simp [hc]) hsp

theorem spaceOnly_pyStrip (l : Str) (h : spaceOnly l) : spaceOnly (pyStrip l) := by
  rcases pyStrip_decomp l with ⟨u, v, huv⟩
  exact spaceOnly_append_parts (huv ▸ h)

theorem noTwo_tail (a : Char) (l : Str) (h : noTwoSpaces (a :: l) = true) :
    noTwoSpaces l = true := by
  cases l with
  | nil => rfl
  | cons b r =>
    simp only [noTwoSpaces, Bool.and_eq_true] at h
    exact h.2

theorem noTwo_pair {a b : Char} {r : Str}
    (h : noTwoSpaces (a :: b :: r) = true) :
    ¬(a = ' ' ∧ b = ' ') ∧ noTwoSpaces (b :: r) = true := by
  simp only [noTwoSpaces, Bool.and_eq_true] at h
  refine ⟨?_, h.2⟩
  rintro ⟨rfl, rfl⟩
  simp at h

theorem pairFlag_of (a b : Char) (h : ¬(a = ' ' ∧ b = ' ')) :
    (!(a == ' ' && b == ' ')) = true := by
  by_cases ha : a = ' '
  · by_cases hb : b = ' '
    · exact absurd ⟨ha, hb⟩ h
    · simp [ha, hb]
  · simp [ha]

theorem noTwo_cons_of (a : Char) (l : Str) (hl : noTwoSpaces l = true)
    (hh : ∀ x r, l = x :: r → ¬(a = ' ' ∧ x = ' ')) :
    noTwoSpaces (a :: l) = true := by
  cases l with
  | nil => rfl
  | cons b r =>
    simp only [noTwoSpaces, Bool.and_eq_true]
    exact ⟨pairFlag_of a b (hh b r rfl), hl⟩

theorem collapse_true_head :
    ∀ l : Str, collapseAux true l = [] ∨
      ∃ c r, collapseAux true l = c :: r ∧ isPySpace c = false := by
  intro l
  induction l with
  | nil => exact Or.inl rfl
  | cons d rest ih =>
    simp only [collapseAux]
    by_cases hd : isPySpace d = true
    · rw [if_pos hd]
      simp only [if_true]
      exact ih
    · rw [if_neg hd]
      exact Or.inr ⟨d, collapseAux false rest, rfl, by simpa using hd⟩

theorem noTwo_collapseAux :
    ∀ (l : Str) (b : Bool), noTwoSpaces (collapseAux b l) = true := by
  intro l
  induction l with
  | nil => intro b; rfl
  | cons d rest ih =>
    intro b
    simp only [collapseAux]
    by_cases hd : isPySpace d = true
    · rw [if_pos hd]
      cases b with
      | true =>
        rw [if_pos rfl]
        exact ih true
      | false =>
        rw [if_neg (by simp)]
        apply noTwo_cons_of _ _ (ih true)
        intro x r hxr hand
        rcases collapse_true_head rest with h | ⟨c, r2, h, hc⟩
        · rw [h] at hxr
          exact absurd hxr (by simp)
        · rw [h] at hxr
          injection hxr with h1 _
          rw [h1, hand.2] at hc
          exact absurd hc (by decide)
    · rw [if_neg hd]
      apply noTwo_cons_of _ _ (ih false)
      intro x r _ hand
      rw [hand.1] at hd
      exact hd (by decide)

theorem subPair_cons (p q : Char → Bool) (a : Char) :
    ∀ r : Str, ∃ t, subPair p q (a :: r) = a :: t := by
  intro r
  cases r with
  | nil => exact ⟨[], rfl⟩
  | cons b r2 =>
    simp only [subPair]
    by_cases h : (p a && q b) = true
    · rw [if_pos h]
      exact ⟨' ' :: b :: subPair p q r2, rfl⟩
    · rw [if_neg h]
      exact ⟨subPair p q (b :: r2), rfl⟩

theorem noTwo_subPair (p q : Char → Bool) (hp : p ' ' = false) (hq : q ' ' = false) :
    ∀ l, noTwoSpaces l = true → noTwoSpaces (subPair p q l) = true
  | [] => fun h => h
  | [_] => fun h => h
  | a :: b :: r => fun h => by
    have hp2 := noTwo_pair h
    have hrec : noTwoSpaces (subPair p q r) = true :=
      noTwo_subPair p q hp hq r (noTwo_tail _ _ hp2.2)
    simp only [subPair]
    by_cases hm : (p a && q b) = true
    · rw [if_pos hm]
      have ha : a ≠ ' ' := fun ha => by
        rw [ha] at hm
        simp [hp] at hm
      have hb : b ≠ ' ' := fun hb => by
        rw [hb] at hm
        simp [hq] at hm
      have hmid : noTwoSpaces (b :: subPair p q r) = true := by
        cases r with
        | nil => rfl
        | cons c r2 =>
          rcases subPair_cons p q c r2 with ⟨t, ht⟩
          rw [ht]
          apply noTwo_cons_of _ _ (ht ▸ hrec)
          intro x r3 hx hand
          injection hx with hx1 _
          exact (noTwo_pair hp2.2).1 ⟨hand.1, hx1 ▸ hand.2⟩
      have htop : noTwoSpaces (' ' :: b :: subPair p q r) = true := by
        apply noTwo_cons_of _ _ hmid
        intro x r3 hx hand
        injection hx with hx1 _
        exact hb (hx1 ▸ hand.2)
      apply noTwo_cons_of _ _ htop
      intro x r3 _ hand
      exact ha hand.1
    · rw [if_neg hm]
      rcases subPair_cons p q b r with ⟨t, ht⟩
      rw [ht]
      apply noTwo_cons_of _ _ (ht ▸ noTwo_subPair p q hp hq (b :: r) hp2.2)
      intro x r3 hx hand
      injection hx with hx1 _
      exact hp2.1 ⟨hand.1, hx1 ▸ hand.2⟩

theorem noTwo_append_left :
    ∀ (s b : Str), noTwoSpaces (s ++ b) = true → noTwoSpaces s = true
  | [], _ => fun _ => rfl
  | [_], _ => fun _ => rfl
  | a :: c :: r, b => fun h => by
    simp only [List.cons_append] at h
    have hp := noTwo_pair h
    simp only [noTwoSpaces, Bool.and_eq_true]
    refine ⟨pairFlag_of a c hp.1, ?_⟩
    have := noTwo_append_left (c :: r) b (by simpa using hp.2)
    exact this

theorem noTwo_drop_left :
    ∀ (u l : Str), noTwoSpaces (u ++ l) = true → noTwoSpaces l = true
  | [], _ => fun h => h
  | a :: u, l => fun h =>
    noTwo_drop_left u l (noTwo_tail _ _ (by simpa using h))

theorem noTwo_infix {u m v l : Str} (huv : l = u ++ m ++ v)
    (h : noTwoSpaces l = true) : noTwoSpaces m = true := by
  subst huv
  exact noTwo_drop_left u m (noTwo_append_left (u ++ m) v h)

theorem noTwo_pyStrip (l : Str) (h : noTwoSpaces l = true) :
    noTwoSpaces (pyStrip l) = true := by
  rcases pyStrip_decomp l with ⟨u, v, huv⟩
  exact noTwo_infix huv h

theorem noPair_tail (p q : Char → Bool) (a : Char) (l : Str)
    (h : noPairB p q (a :: l) = true) : noPairB p q l = true := by
  cases l with
  | nil => rfl
  | cons b r =>
    simp only [noPairB, Bool.and_eq_true] at h
    exact h.2

theorem noPair_pair {p q : Char → Bool} {a b : Char} {r : Str}
    (h : noPairB p q (a :: b :: r) = true) :
    (p a && q b) = false ∧ noPairB p q (b :: r) = true := by
  simp only [noPairB, Bool.and_eq_true, Bool.not_eq_true'] at h
  exact h

theorem noPair_cons_of (p q : Char → Bool) (a : Char) (l : Str)
    (hl : noPairB p q l = true)
    (hh : ∀ x r, l = x :: r → (p a && q x) = false) :
    noPairB p q (a :: l) = true := by
  cases l with
  | nil => rfl
  | cons b r =>
    simp only [noPairB, Bool.and_eq_true, Bool.not_eq_true']
    exact ⟨hh b r rfl, hl⟩

theorem noPair_subPair_self (p q : Char → Bool)
    (hdisj : ∀ c, ¬(p c = true ∧ q c = true))
    (hp : p ' ' = false) (hq : q ' ' = false) :
    ∀ l, noPairB p q (subPair p q l) = true
  | [] => rfl
  | [_] => rfl
  | a :: b :: r => by
    simp only [subPair]
    by_cases hm : (p a && q b) = true
    · rw [if_pos hm]
      have hqb : q b = true := (Bool.and_eq_true _ _ |>.mp hm).2
      have hpb : p b = false := by
        by_cases h : p b = true
        · exact absurd ⟨h, hqb⟩ (hdisj b)
        · simpa using h
      have hmid : noPairB p q (b :: subPair p q r) = true := by
        apply noPair_cons_of _ _ _ _ (noPair_subPair_self p q hdisj hp hq r)
        intro x r3 _
        rw [hpb]
        simp
      have htop : noPairB p q (' ' :: b :: subPair p q r) = true := by
        apply noPair_cons_of _ _ _ _ hmid
        intro x r3 _
        rw [hp]
        simp
      apply noPair_cons_of _ _ _ _ htop
      intro x r3 hx
      injection hx with hx1 _
      rw [← hx1, hq]
      simp
    · rw [if_neg hm]
      rcases subPair_cons p q b r with ⟨t, ht⟩
      rw [ht]
      apply noPair_cons_of _ _ _ _
        (ht ▸ noPair_subPair_self p q hdisj hp hq (b :: r))
      intro x r3 hx
      injection hx with hx1 _
      rw [← hx1]
      simpa using hm

theorem noPair_subPair_pres (p q p' q' : Char → Bool)
    (hp' : p' ' ' = false) (hq' : q' ' ' = false) :
    ∀ l, noPairB p' q' l = true → noPairB p' q' (subPair p q l) = true
  | [] => fun h => h
  | [_] => fun h => h
  | a :: b :: r => fun h => by
    have hp2 := noPair_pair h
    simp only [subPair]
    by_cases hm : (p a && q b) = true
    · rw [if_pos hm]
      have hrec := noPair_subPair_pres p q p' q' hp' hq' r
        (noPair_tail p' q' b r hp2.2)
      have hmid : noPairB p' q' (b :: subPair p q r) = true := by
        cases r with
        | nil => rfl
        | cons c r2 =>
          rcases subPair_cons p q c r2 with ⟨t, ht⟩
          rw [ht]
          apply noPair_cons_of _ _ _ _ (ht ▸ hrec)
          intro x r3 hx
          injection hx with hx1 _
          rw [← hx1]
          exact (noPair_pair hp2.2).1
      have htop : noPairB p' q' (' ' :: b :: subPair p q r) = true := by
        apply noPair_cons_of _ _ _ _ hmid
        intro x r3 _
        rw [hp']
        simp
      apply noPair_cons_of _ _ _ _ htop
      intro x r3 hx
      injection hx with hx1 _
      rw [← hx1, hq']
      simp
    · rw [if_neg hm]
      rcases subPair_cons p q b r with ⟨t, ht⟩
      rw [ht]
      apply noPair_cons_of _ _ _ _
        (ht ▸ noPair_subPair_pres p q p' q' hp' hq' (b :: r) hp2.2)
      intro x r3 hx
      injection hx with hx1 _
      rw [← hx1]
      exact hp2.1

theorem noPair_append_left (p q : Char → Bool) :
    ∀ (s b : Str), noPairB p q (s ++ b) = true → noPairB p q s = true
  | [], _ => fun _ => rfl
  | [_], _ => fun _ => rfl
  | a :: c :: r, b => fun h => by
    simp only [List.cons_append] at h
    have hp := noPair_pair h
    simp only [noPairB, Bool.and_eq_true, Bool.not_eq_true']
    exact ⟨hp.1, noPair_append_left p q (c :: r) b (by simpa using hp.2)⟩

theorem noPair_drop_left (p q : Char → Bool) :
    ∀ (u l : Str), noPairB p q (u ++ l) = true → noPairB p q l = true
  | [], _ => fun h => h
  | a :: u, l => fun h =>
    noPair_drop_left p q u l (noPair_tail p q _ _ (by simpa using h))

theorem noPair_infix {p q : Char → Bool} {u m v l : Str} (huv : l = u ++ m ++ v)
    (h : noPairB p q l = true) : noPairB p q m = true := by
  subst huv
  exact noPair_drop_left p q u m (noPair_append_left p q (u ++ m) v h)

theorem noPair_pyStrip (p q : Char → Bool) (l : Str)
    (h : noPairB p q l = true) : noPairB p q (pyStrip l) = true := by
  rcases pyStrip_decomp l with ⟨u, v, huv⟩
  exact noPair_infix huv h

theorem subPair_id (p q : Char → Bool) :
    ∀ l, noPairB p q l = true → subPair p q l = l
  | [] => fun _ => rfl
  | [_] => fun _ => rfl
  | a :: b :: r => fun h => by
    have hp := noPair_pair h
    simp only [subPair]
    rw [if_neg (by simp [hp.1])]
    exact congrArg (a :: ·) (subPair_id p q (b :: r) hp.2)

theorem spaceOnly_tail {c : Char} {l : Str} (h : spaceOnly (c :: l)) :
    spaceOnly l :=
  fun d hd hsp => h d (List.mem_cons_of_mem _ hd) hsp

theorem collapse_id :
    ∀ l : Str, spaceOnly l → noTwoSpaces l = true → collapseAux false l = l := by
  intro l
  induction l with
  | nil => intro _ _; rfl
  | cons c rest ih =>
    intro hsp hnt
    simp only [collapseAux]
    by_cases hc : isPySpace c = true
    · have hc' : c = ' ' := hsp c (List.mem_cons_self _ _) hc
      rw [if_pos hc, if_neg (by simp)]
      subst hc'
      cases rest with
      | nil => rfl
      | cons d r2 =>
        have hd : isPySpace d = false := by
          by_cases hds : isPySpace d = true
          · have hd' : d = ' ' :=
              (spaceOnly_tail hsp) d (List.mem_cons_self _ _) hds
            exact absurd ⟨rfl, hd'⟩ (noTwo_pair hnt).1
          · simpa using hds
        have hrest := ih (spaceOnly_tail hsp) (noTwo_tail _ _ hnt)
        simp only [collapseAux, hd, Bool.false_eq_true, if_false] at hrest
        simp only [collapseAux, hd, Bool.false_eq_true, if_false]
        exact congrArg (' ' :: ·) hrest
    · rw [if_neg hc]
      exact congrArg (c :: ·) (ih (spaceOnly_tail hsp) (noTwo_tail _ _ hnt))

theorem map_eq_self_of (f : Char → Char) :
    ∀ l : Str, (∀ c ∈ l, f c = c) → l.map f = l := by
  intro l
  induction l with
  | nil => intro _; rfl
  | cons c r ih =>
    intro h
    simp only [List.map_cons]
    rw [h c (List.mem_cons_self _ _), ih fun d hd => h d (List.mem_cons_of_mem _ hd)]

theorem replaceTab_id (l : Str) (h : spaceOnly l) : replaceTab l = l := by
  apply map_eq_self_of
  intro c hc
  by_cases e : c = '\t'
  · exfalso
    have h2 := h c hc (by rw [e]; decide)
    rw [e] at h2
    exact absurd h2 (by decide)
  · simp [e]

theorem replaceNbsp_id (l : Str) (h : spaceOnly l) : replaceNbsp l = l := by
  apply map_eq_self_of
  intro c hc
  by_cases e : (c = ' ' || c = ' ' || c = ' ') = true
  · exfalso
    have e2 := e
    simp only [Bool.or_eq_true, decide_eq_true_eq] at e2
    have hsp2 : isPySpace c = true := by
      rcases e2 with (e2 | e2) | e2 <;> rw [e2] <;> decide
    have h2 := h c hc hsp2
    rcases e2 with (e2 | e2) | e2 <;> rw [h2] at e2 <;> exact absurd e2 (by decide)
  · rw [if_neg e]

theorem hasHB_tail {c : Char} {rest : Str}
    (h : hasHyphenBreak (c :: rest) = false) : hasHyphenBreak rest = false := by
  simp only [hasHyphenBreak, Bool.or_eq_false_iff] at h
  exact h.2

theorem hasHB_dropWhile (p : Char → Bool) :
    ∀ l : Str, hasHyphenBreak l = false →
      hasHyphenBreak (l.dropWhile p) = false := by
  intro l
  induction l with
  | nil => intro h; exact h
  | cons c rest ih =>
    intro h
    by_cases hc : p c = true
    · simp only [List.dropWhile, hc]
      exact ih (hasHB_tail h)
    · simp only [List.dropWhile, Bool.not_eq_true] at hc ⊢
      rw [hc]
      exact h

theorem shAux_nil_scan : ∀ f, shAux f .scan [] = [] := by
  intro f
  cases f <;> rfl

theorem shAux_skip :
    ∀ (l : Str) (f : Nat) (w : Char) (acc : Str), l.length ≤ f →
      (∀ d r, l.dropWhile isPySpace = d :: r → isWordC d = false) →
      ∃ f2, (l.dropWhile isPySpace).length ≤ f2 ∧
        shAux f (.skip w acc) l
          = w :: '-' :: (acc.reverse ++ (l.takeWhile isPySpace
              ++ shAux f2 .scan (l.dropWhile isPySpace))) := by
  intro l
  induction l with
  | nil =>
    intro f w acc _ _
    refine ⟨0, by simp, ?_⟩
    cases f <;> simp [shAux]
  | cons c rest ih =>
    intro f w acc hf hcond
    cases f with
    | zero => simp at hf
    | succ g =>
      by_cases hc : isPySpace c = true
      · have hrest : rest.length ≤ g := by
          simp only [List.length_cons] at hf
          omega
        have hcond' : ∀ d r, rest.dropWhile isPySpace = d :: r →
            isWordC d = false := by
          intro d r hdr
          apply hcond d r
          simp only [List.dropWhile, hc]
          exact hdr
        obtain ⟨f2, hf2, heq⟩ := ih g w (c :: acc) hrest hcond'
        refine ⟨f2, ?_, ?_⟩
        · simp only [List.dropWhile, hc]
          exact hf2
        · have hstep : shAux (g + 1) (.skip w acc) (c :: rest)
              = shAux g (.skip w (c :: acc)) rest := by
            simp only [shAux, hc, if_true]
          rw [hstep, heq]
          simp only [List.dropWhile, List.takeWhile, hc, List.reverse_cons,
            List.append_assoc, List.cons_append, List.nil_append]
      · have hdw : (c :: rest).dropWhile isPySpace = c :: rest := by
          simp only [List.dropWhile, Bool.not_eq_true] at hc ⊢
          rw [hc]
        have hw : isWordC c = false := hcond c rest hdw
        refine ⟨g + 1, by rw [hdw]; exact hf, ?_⟩
        have hstep : shAux (g + 1) (.skip w acc) (c :: rest)
            = w :: '-' :: acc.reverse ++ c :: shAux g .scan rest := by
          simp only [shAux, hc, hw, Bool.false_eq_true, if_false]
        have hscan : shAux (g + 1) .scan (c :: rest)
            = c :: shAux g .scan rest := by
          simp only [shAux, hw, Bool.false_eq_true, if_false]
        rw [hstep, hdw, hscan]
        have htw : (c :: rest).takeWhile isPySpace = [] := by
          simp only [List.takeWhile, hc]
        rw [htw]
        simp [List.append_assoc]

theorem shAux_scan_id : ∀ (n : Nat) (l : Str), l.length ≤ n →
    ∀ f, l.length ≤ f → hasHyphenBreak l = false → shAux f .scan l = l := by
  intro n
  induction n with
  | zero =>
    intro l hl f _ _
    have : l = [] := List.length_eq_zero.mp (Nat.le_zero.mp hl)
    rw [this]
    exact shAux_nil_scan f
  | succ n ih =>
    intro l hl f hf hH
    cases l with
    | nil => exact shAux_nil_scan f
    | cons c rest =>
      cases f with
      | zero => simp at hf
      | succ g =>
        by_cases hw : isWordC c = true
        · rcases rest with _ | ⟨r1, rest1⟩
          · simp only [shAux, hw, if_true]
            rw [shAux_nil_scan g]
          · by_cases hr1 : r1 = '-'
            · subst hr1
              rcases rest1 with _ | ⟨s, rest2⟩
              · simp only [shAux, hw, if_true]
                rw [ih ['-'] (by simp only [List.length_cons, List.length_nil] at hl ⊢; omega) g
                  (by simp only [List.length_cons] at hf ⊢; omega)
                  (hasHB_tail hH)]
              · by_cases hs : isPySpace s = true
                · have hcond : ∀ d r, rest2.dropWhile isPySpace = d :: r →
                      isWordC d = false := by
                    simp only [hasHyphenBreak, Bool.or_eq_false_iff,
                      Bool.and_eq_false_iff] at hH
                    rcases hH.1 with h1 | h1
                    · rw [hw] at h1; simp at h1
                    · rcases h1 with h1 | h1
                      · rw [hs] at h1; simp at h1
                      · intro d r hdr
                        rw [hdr] at h1
                        exact h1
                  have hlen2 : rest2.length ≤ g := by
                    simp only [List.length_cons] at hf
                    omega
                  obtain ⟨f2, hf2, heq⟩ := shAux_skip rest2 g c [s] hlen2 hcond
                  have hstep : shAux (g + 1) .scan (c :: '-' :: s :: rest2)
                      = shAux g (.skip c [s]) rest2 := by
                    simp only [shAux, hw, hs, if_true]
                  rw [hstep, heq]
                  have hHd : hasHyphenBreak (rest2.dropWhile isPySpace) = false :=
                    hasHB_dropWhile isPySpace rest2
                      (hasHB_tail (hasHB_tail (hasHB_tail hH)))
                  have hlen3 : (rest2.dropWhile isPySpace).length ≤ n := by
                    have := (List.dropWhile_sublist (l := rest2) (p := isPySpace)).length_le
                    simp only [List.length_cons] at hl
                    omega
                  rw [ih (rest2.dropWhile isPySpace) hlen3 f2 hf2 hHd]
                  rw [List.takeWhile_append_dropWhile]
                  simp
                · have hstep : shAux (g + 1) .scan (c :: '-' :: s :: rest2)
                      = c :: '-' :: shAux g .scan (s :: rest2) := by
                    simp only [shAux, hw, hs, Bool.false_eq_true, if_true, if_false]
                  rw [hstep]
                  rw [ih (s :: rest2)
                    (by simp only [List.length_cons] at hl ⊢; omega) g
                    (by simp only [List.length_cons] at hf ⊢; omega)
                    (hasHB_tail (hasHB_tail hH))]
            · have hstep : shAux (g + 1) .scan (c :: r1 :: rest1)
                  = c :: shAux g .scan (r1 :: rest1) := by
                rcases rest1 with _ | ⟨s, rest2⟩
                · simp only [shAux, hw, if_true]
                · simp only [shAux, hw, if_true]
                  split
                  · rename_i heqm
                    rw [List.cons.injEq] at heqm
                    exact absurd heqm.1 hr1
                  · rfl
              rw [hstep]
              rw [ih (r1 :: rest1)
                (by simp only [List.length_cons] at hl ⊢; omega) g
                (by simp only [List.length_cons] at hf ⊢; omega)
                (hasHB_tail hH)]
        · have hstep : shAux (g + 1) .scan (c :: rest)
              = c :: shAux g .scan rest := by
            simp only [shAux, hw, Bool.false_eq_true, if_false]
          rw [hstep]
          rw [ih rest (by simp only [List.length_cons] at hl; omega) g
            (by simp only [List.length_cons] at hf; omega)
            (hasHB_tail hH)]

theorem subHyphen_id {l : Str} (h : hasHyphenBreak l = false) :
    subHyphen l = l :=
  shAux_scan_id l.length l le_rfl l.length le_rfl h

theorem clean_text_ne_nil {s : Str} (hs : s ≠ []) :
    clean_text s
      = pyStrip (subPair isDigitC isAlphaC (subPair isAlphaC isDigitC
          (subPair isLowerC isUpperC
            (collapseWs (subHyphen (replaceNbsp (replaceTab s))))))) := by
  simp only [clean_text]
  rw [if_neg hs]

/-- C1 counterexample: `clean_text` is not idempotent.  On `"a- b- c"` the
first pass rejoins the first hyphen break, producing `"ab- c"`, which itself
still contains a hyphen-break pattern (the rejoining glued `b` against the
second `"- "`), so a second pass rejoins again: `clean_text "a- b- c" =
"ab- c"` but `clean_text "ab- c" = "abc"`. -/
theorem C1_counterexample :
    clean_text (clean_text "a- b- c".toList) ≠ clean_text "a- b- c".toList := by
  decide

/-- C1 (amended): `clean_text` is idempotent on every input whose first pass
leaves no hyphen-break pattern `(\w)-\s+(\w)` behind: if
`hasHyphenBreak (clean_text t) = false` then
`clean_text (clean_text t) = clean_text t`.  (Unrestricted idempotence fails:
see the counterexample.) -/
theorem C1_normalize_idempotent (t : Str)
    (h : hasHyphenBreak (clean_text t) = false) :
    clean_text (clean_text t) = clean_text t := by
  by_cases hs : clean_text t = []
  · rw [hs]
    rfl
  · have ht : t ≠ [] := fun e => hs (by rw [e]; rfl)
    have hdef := clean_text_ne_nil ht
    have hsp0 : spaceOnly (collapseWs (subHyphen (replaceNbsp (replaceTab t)))) :=
      spaceOnly_collapseWs _
    have hsp1 := spaceOnly_subPair isLowerC isUpperC _ hsp0
    have hsp2 := spaceOnly_subPair isAlphaC isDigitC _ hsp1
    have hsp3 := spaceOnly_subPair isDigitC isAlphaC _ hsp2
    have hspS : spaceOnly (clean_text t) := by
      rw [hdef]
      exact spaceOnly_pyStrip _ hsp3
    have hnt0 : noTwoSpaces (collapseWs (subHyphen (replaceNbsp (replaceTab t))))
        = true := noTwo_collapseAux _ false
    have hnt1 := noTwo_subPair isLowerC isUpperC (by decide) (by decide) _ hnt0
    have hnt2 := noTwo_subPair isAlphaC isDigitC (by decide) (by decide) _ hnt1
    have hnt3 := noTwo_subPair isDigitC isAlphaC (by decide) (by decide) _ hnt2
    have hntS : noTwoSpaces (clean_text t) = true := by
      rw [hdef]
      exact noTwo_pyStrip _ hnt3
    have hlu1 : noPairB isLowerC isUpperC
        (subPair isLowerC isUpperC
          (collapseWs (subHyphen (replaceNbsp (replaceTab t))))) = true :=
      noPair_subPair_self _ _ lower_upper_disjoint (by decide) (by decide) _
    have hlu2 := noPair_subPair_pres isAlphaC isDigitC isLowerC isUpperC
      (by decide) (by decide) _ hlu1
    have hlu3 := noPair_subPair_pres isDigitC isAlphaC isLowerC isUpperC
      (by decide) (by decide) _ hlu2
    have hluS : noPairB isLowerC isUpperC (clean_text t) = true := by
      rw [hdef]
      exact noPair_pyStrip _ _ _ hlu3
    have had2 : noPairB isAlphaC isDigitC
        (subPair isAlphaC isDigitC (subPair isLowerC isUpperC
          (collapseWs (subHyphen (replaceNbsp (replaceTab t)))))) = true :=
      noPair_subPair_self _ _ alpha_digit_disjoint (by decide) (by decide) _
    have had3 := noPair_subPair_pres isDigitC isAlphaC isAlphaC isDigitC
      (by decide) (by decide) _ had2
    have hadS : noPairB isAlphaC isDigitC (clean_text t) = true := by
      rw [hdef]
      exact noPair_pyStrip _ _ _ had3
    have hda3 : noPairB isDigitC isAlphaC
        (subPair isDigitC isAlphaC (subPair isAlphaC isDigitC
          (subPair isLowerC isUpperC
            (collapseWs (subHyphen (replaceNbsp (replaceTab t))))))) = true :=
      noPair_subPair_self _ _ digit_alpha_disjoint (by decide) (by decide) _
    have hdaS : noPairB isDigitC isAlphaC (clean_text t) = true := by
      rw [hdef]
      exact noPair_pyStrip _ _ _ hda3
    have hps : pyStrip (clean_text t) = clean_text t := by
      conv_lhs => rw [hdef]
      rw [pyStrip_idem, ← hdef]
    calc clean_text (clean_text t)
        = pyStrip (subPair isDigitC isAlphaC (subPair isAlphaC isDigitC
            (subPair isLowerC isUpperC
              (collapseWs (subHyphen (replaceNbsp
                (replaceTab (clean_text t)))))))) := clean_text_ne_nil hs
      _ = clean_text t := by
          rw [replaceTab_id _ hspS, replaceNbsp_id _ hspS, subHyphen_id h]
          simp only [collapseWs]
          rw [collapse_id _ hspS hntS, subPair_id _ _ _ hluS,
            subPair_id _ _ _ hadS, subPair_id _ _ _ hdaS, hps]

theorem C1_witness :
    clean_text (clean_text "ab cd".toList) = clean_text "ab cd".toList :=
  C1_normalize_idempotent "ab cd".toList (by decide)
